import Mathlib

/-!
Verification of the Cube Labyrinth repository (`src/main.js`).

Part 1 embeds the procedural maze generator (`generateMaze`, lines 149-282):
the randomized depth-first spanning-tree carve, the BFS
farthest-cell/eccentricity pass, the start-to-goal path reconstruction and
the drop-cell selection.  Grids (`visited`, `vertWalls`, `horizWalls`,
`dist`, `prev`) are modelled as total functions from indices, JavaScript's
`-1` distance sentinel is kept as an `Int` value, and `Math.random()` draws
are modelled by an arbitrary stream `rng : ℕ → ℕ` (the i-th draw scaled to
a bound `k` becomes `rng i % k`, which ranges over exactly the values
`Math.floor(Math.random() * k)` can take).  The `while` loops are modelled
with explicit fuel; the chosen fuel provably dominates a decreasing measure
of each loop, so the fuelled functions compute the loops' real fixpoints.

Part 2 (further below) embeds the physics integrator over `ℝ`.
-/

namespace Peli

/-- Pointwise update of a two-index grid, the shallow embedding of the
JavaScript assignment `g[a][b] = v` for grids represented as functions. -/
def upd2 {α : Type} (f : ℕ → ℕ → α) (a b : ℕ) (v : α) : ℕ → ℕ → α :=
  fun x z => if x = a ∧ z = b then v else f x z

/-- State of the depth-first carve loop of `generateMaze`
(`src/main.js` lines 149-211).  `marks` is a ghost field counting how many
times each cell has been marked visited (used to state "visited exactly
once"); it influences nothing else. -/
structure CarveState where
  visited : ℕ → ℕ → Bool
  vert : ℕ → ℕ → Bool
  horiz : ℕ → ℕ → Bool
  stack : List (ℕ × ℕ)
  k : ℕ
  marks : ℕ → ℕ → ℕ

/-- `neighbors(x, z)` from `src/main.js` lines 176-183: the unvisited
von-Neumann neighbours of `(x,z)`, in source order (left, right, back,
front). -/
def neighbors (n : ℕ) (visited : ℕ → ℕ → Bool) (x z : ℕ) : List (ℕ × ℕ) :=
  (if 0 < x ∧ visited (x - 1) z = false then [(x - 1, z)] else []) ++
  (if x < n - 1 ∧ visited (x + 1) z = false then [(x + 1, z)] else []) ++
  (if 0 < z ∧ visited x (z - 1) = false then [(x, z - 1)] else []) ++
  (if z < n - 1 ∧ visited x (z + 1) = false then [(x, z + 1)] else [])

/-- Body of one carve iteration for a non-empty stack with top `(x,z)`
(`src/main.js` lines 186-210): inspect the unvisited neighbours, pop if
none, otherwise pick one by the next random draw, clear the separating
wall, mark it visited and push it. -/
def carveStepGo (n : ℕ) (rng : ℕ → ℕ) (s : CarveState) (x z : ℕ)
    (rest : List (ℕ × ℕ)) : CarveState :=
  let neigh := neighbors n s.visited x z
  if neigh.length = 0 then
    { s with stack := rest }
  else
    let idx := rng s.k % neigh.length
    let nxz := neigh.getD idx (0, 0)
    let nx := nxz.1
    let nz := nxz.2
    let s1 :=
      if nx = x + 1 then { s with vert := upd2 s.vert (x + 1) z false }
      else if nx + 1 = x then { s with vert := upd2 s.vert x z false }
      else if nz = z + 1 then { s with horiz := upd2 s.horiz x (z + 1) false }
      else if nz + 1 = z then { s with horiz := upd2 s.horiz x z false }
      else s
    { s1 with
      visited := upd2 s1.visited nx nz true
      stack := (nx, nz) :: (x, z) :: rest
      k := s.k + 1
      marks := fun a b => if a = nx ∧ b = nz then s1.marks a b + 1 else s1.marks a b }

/-- One iteration of the carve's `while (stack.length > 0)` loop
(`src/main.js` lines 185-211).  The stack is a list with its head as the
stack top (`stack[stack.length - 1]`).  A step with an empty stack is the
identity (the loop would have exited). -/
def carveStep (n : ℕ) (rng : ℕ → ℕ) (s : CarveState) : CarveState :=
  match s.stack with
  | [] => s
  | (x, z) :: rest => carveStepGo n rng s x z rest

/-- Initial carve state (`src/main.js` lines 150-174): all walls present,
only the random start cell visited and pushed.  Draws 0 and 1 of the
stream are `startX` and `startZ`; neighbour picks continue from draw 2. -/
def carveInit (n : ℕ) (rng : ℕ → ℕ) : CarveState :=
  let sx := rng 0 % n
  let sz := rng 1 % n
  { visited := upd2 (fun _ _ => false) sx sz true
    vert := fun _ _ => true
    horiz := fun _ _ => true
    stack := [(sx, sz)]
    k := 2
    marks := fun a b => if a = sx ∧ b = sz then 1 else 0 }

/-- The carve loop with explicit fuel.  Each genuine iteration strictly
decreases `2 * (number of unvisited cells) + stack length` (proved below),
so fuel `2 * n * n` always reaches the empty-stack fixpoint. -/
def carveLoop (n : ℕ) (rng : ℕ → ℕ) : ℕ → CarveState → CarveState
  | 0, s => s
  | fuel + 1, s => if s.stack = [] then s else carveLoop n rng fuel (carveStep n rng s)

/-- The completed depth-first carve of `generateMaze`. -/
def carve (n : ℕ) (rng : ℕ → ℕ) : CarveState :=
  carveLoop n rng (2 * n * n) (carveInit n rng)

/-- The cells of the `n × n` grid, as a finite set of index pairs. -/
def gridCells (n : ℕ) : Finset (ℕ × ℕ) := Finset.range n ×ˢ Finset.range n

/-- Number of visited cells of the grid. -/
def visitedCount (n : ℕ) (v : ℕ → ℕ → Bool) : ℕ :=
  ((gridCells n).filter (fun c => v c.1 c.2 = true)).card

/-- The cleared entries of the vertical-wall grid `vertWalls[0..n][0..n-1]`. -/
def clearedVert (n : ℕ) (w : ℕ → ℕ → Bool) : Finset (ℕ × ℕ) :=
  ((Finset.range (n + 1)) ×ˢ Finset.range n).filter (fun c => w c.1 c.2 = false)

/-- The cleared entries of the horizontal-wall grid `horizWalls[0..n-1][0..n]`. -/
def clearedHoriz (n : ℕ) (w : ℕ → ℕ → Bool) : Finset (ℕ × ℕ) :=
  (Finset.range n ×ˢ Finset.range (n + 1)).filter (fun c => w c.1 c.2 = false)

/-- Total number of cleared walls in both wall grids. -/
def clearedCount (n : ℕ) (vert horiz : ℕ → ℕ → Bool) : ℕ :=
  (clearedVert n vert).card + (clearedHoriz n horiz).card

/-- Adjacency of two cells through a cleared wall, exactly as read by both
the carve (lines 198-207) and the BFS pass (lines 228-248):
`vertWalls[ix][iz]` separates `(ix-1,iz)` from `(ix,iz)` and
`horizWalls[ix][iz]` separates `(ix,iz-1)` from `(ix,iz)`. -/
def mazeAdj (vert horiz : ℕ → ℕ → Bool) (a b : ℕ × ℕ) : Prop :=
  (a.2 = b.2 ∧ b.1 = a.1 + 1 ∧ vert b.1 a.2 = false) ∨
  (a.2 = b.2 ∧ a.1 = b.1 + 1 ∧ vert a.1 a.2 = false) ∨
  (a.1 = b.1 ∧ b.2 = a.2 + 1 ∧ horiz a.1 b.2 = false) ∨
  (a.1 = b.1 ∧ a.2 = b.2 + 1 ∧ horiz a.1 a.2 = false)

instance (vert horiz : ℕ → ℕ → Bool) (a b : ℕ × ℕ) :
    Decidable (mazeAdj vert horiz a b) := by
  unfold mazeAdj; infer_instance

lemma mazeAdj_symm {vert horiz : ℕ → ℕ → Bool} {ax az bx bz : ℕ}
    (h : mazeAdj vert horiz (ax, az) (bx, bz)) : mazeAdj vert horiz (bx, bz) (ax, az) := by
  rcases h with ⟨h1, h2, h3⟩ | ⟨h1, h2, h3⟩ | ⟨h1, h2, h3⟩ | ⟨h1, h2, h3⟩ <;>
    dsimp only at h1 h2 h3 ⊢ <;> unfold mazeAdj <;> dsimp only <;> subst h1
  · exact Or.inr (Or.inl ⟨rfl, h2, h3⟩)
  · exact Or.inl ⟨rfl, h2, h3⟩
  · exact Or.inr (Or.inr (Or.inr ⟨rfl, h2, h3⟩))
  · exact Or.inr (Or.inr (Or.inl ⟨rfl, h2, h3⟩))

lemma mazeAdj_irrefl {vert horiz : ℕ → ℕ → Bool} {ax az : ℕ}
    (h : mazeAdj vert horiz (ax, az) (ax, az)) : False := by
  rcases h with ⟨_, h2, _⟩ | ⟨_, h2, _⟩ | ⟨_, h2, _⟩ | ⟨_, h2, _⟩ <;> dsimp only at h2 <;> omega

/-- The graph whose vertices are the grid cells and whose edges are the
cleared walls. -/
def mazeGraph (n : ℕ) (vert horiz : ℕ → ℕ → Bool) : SimpleGraph (Fin n × Fin n) where
  Adj a b := mazeAdj vert horiz (a.1.1, a.2.1) (b.1.1, b.2.1)
  symm := by intro a b h; exact mazeAdj_symm h
  loopless := by intro a h; exact mazeAdj_irrefl h

instance (n : ℕ) (vert horiz : ℕ → ℕ → Bool) :
    DecidableRel (mazeGraph n vert horiz).Adj :=
  fun a b => inferInstanceAs (Decidable (mazeAdj vert horiz _ _))

/-- State of the BFS farthest-cell pass (`src/main.js` lines 213-249).
`dist` keeps JavaScript's `-1` unassigned sentinel as an `Int`.  The queue
is a list with head = front (`shift` pops the head, `push` appends).
`order` is a ghost list of the dequeued cells in dequeue order. -/
structure BfsState where
  dist : ℕ → ℕ → Int
  prev : ℕ → ℕ → Option (ℕ × ℕ)
  queue : List (ℕ × ℕ)
  farthest : ℕ × ℕ
  order : List (ℕ × ℕ)

/-- One neighbour relaxation of the BFS (one of the four `if`s of
`src/main.js` lines 229-248): when the guard `c` (in-grid test plus
cleared-wall test) holds and the neighbour `nb` is still unassigned
(`dist === -1`), assign its distance `d + 1`, record the dequeued cell
`(x,z)` as its predecessor and enqueue it. -/
def relax (c : Prop) [Decidable c] (x z : ℕ) (d : Int) (nb : ℕ × ℕ)
    (s : BfsState) : BfsState :=
  if c ∧ s.dist nb.1 nb.2 = -1 then
    { s with dist := upd2 s.dist nb.1 nb.2 (d + 1)
             prev := upd2 s.prev nb.1 nb.2 (some (x, z))
             queue := s.queue ++ [nb] }
  else s

/-- Body of one BFS iteration for a non-empty queue with front `(x,z)`
(`src/main.js` lines 223-248): read `d = dist[x][z]`, update `farthest` on
a strictly larger distance, then relax the four neighbours behind cleared
walls in source order. -/
def bfsStepGo (n : ℕ) (vert horiz : ℕ → ℕ → Bool) (s : BfsState) (x z : ℕ)
    (rest : List (ℕ × ℕ)) : BfsState :=
  let d := s.dist x z
  let far := if s.dist s.farthest.1 s.farthest.2 < d then (x, z) else s.farthest
  let s0 : BfsState :=
    { s with queue := rest, farthest := far, order := s.order ++ [(x, z)] }
  let s1 := relax (0 < x ∧ vert x z = false) x z d (x - 1, z) s0
  let s2 := relax (x < n - 1 ∧ vert (x + 1) z = false) x z d (x + 1, z) s1
  let s3 := relax (0 < z ∧ horiz x z = false) x z d (x, z - 1) s2
  relax (z < n - 1 ∧ horiz x (z + 1) = false) x z d (x, z + 1) s3

/-- One iteration of the BFS `while (queue.length > 0)` loop
(`src/main.js` lines 222-249). -/
def bfsStep (n : ℕ) (vert horiz : ℕ → ℕ → Bool) (s : BfsState) : BfsState :=
  match s.queue with
  | [] => s
  | (x, z) :: rest => bfsStepGo n vert horiz s x z rest

/-- Initial BFS state (`src/main.js` lines 214-220). -/
def bfsInit (sx sz : ℕ) : BfsState :=
  { dist := upd2 (fun _ _ => (-1 : Int)) sx sz 0
    prev := fun _ _ => none
    queue := [(sx, sz)]
    farthest := (sx, sz)
    order := [] }

/-- The BFS loop with explicit fuel (see `carveLoop` for the fuel policy). -/
def bfsLoop (n : ℕ) (vert horiz : ℕ → ℕ → Bool) : ℕ → BfsState → BfsState
  | 0, s => s
  | fuel + 1, s =>
    if s.queue = [] then s else bfsLoop n vert horiz fuel (bfsStep n vert horiz s)

/-- The completed BFS pass. -/
def bfsRun (n : ℕ) (vert horiz : ℕ → ℕ → Bool) (sx sz : ℕ) : BfsState :=
  bfsLoop n vert horiz (2 * n * n) (bfsInit sx sz)

/-- The path-reconstruction `while` loop (`src/main.js` lines 252-261):
walk the `prev` chain from the farthest cell, accumulating cells (`push`
appends), stopping at the start cell or on a missing predecessor. -/
def pathLoop (prev : ℕ → ℕ → Option (ℕ × ℕ)) (sx sz : ℕ) :
    ℕ → ℕ × ℕ → List (ℕ × ℕ) → List (ℕ × ℕ)
  | 0, _, acc => acc
  | fuel + 1, c, acc =>
    if c.1 = sx ∧ c.2 = sz then acc
    else
      let acc2 := acc ++ [c]
      match prev c.1 c.2 with
      | none => acc2
      | some p => pathLoop prev sx sz fuel p acc2

/-- Full reconstructed start-to-goal path (`src/main.js` lines 252-263):
the loop's accumulator, the start cell appended, then reversed. -/
def buildPath (prev : ℕ → ℕ → Option (ℕ × ℕ)) (sx sz : ℕ) (far : ℕ × ℕ)
    (fuel : ℕ) : List (ℕ × ℕ) :=
  ((pathLoop prev sx sz fuel far []) ++ [(sx, sz)]).reverse

/-- `playLevelIndex` (`src/main.js` line 110): the top level is the play layer. -/
def playLevelIndex : ℕ := 1

/-- A cell reference `{ ix, iz, levelIndex }` as returned by `generateMaze`. -/
structure CellRef where
  ix : ℕ
  iz : ℕ
  levelIndex : ℕ
  deriving DecidableEq

/-- Everything `generateMaze` computes, including the intermediate BFS data. -/
structure MazeOut where
  startX : ℕ
  startZ : ℕ
  vert : ℕ → ℕ → Bool
  horiz : ℕ → ℕ → Bool
  marks : ℕ → ℕ → ℕ
  dist : ℕ → ℕ → Int
  prev : ℕ → ℕ → Option (ℕ × ℕ)
  order : List (ℕ × ℕ)
  farthest : ℕ × ℕ
  path : List (ℕ × ℕ)
  dropCell : Option (ℕ × ℕ)
  startCell : CellRef
  goalCell : CellRef

/-- `generateMaze()` (`src/main.js` lines 149-282): carve, BFS farthest
pass, path reconstruction, drop-cell selection at the path midpoint
(`Math.floor(path.length / 2)`, only when the path has at least 3 cells),
goal level 0 exactly when a drop exists, start cell on the play level. -/
def generateMaze (n : ℕ) (rng : ℕ → ℕ) : MazeOut :=
  let sx := rng 0 % n
  let sz := rng 1 % n
  let c := carve n rng
  let b := bfsRun n c.vert c.horiz sx sz
  let path := buildPath b.prev sx sz b.farthest (n * n + 1)
  let dropCell : Option (ℕ × ℕ) :=
    if 3 ≤ path.length then some (path.getD (path.length / 2) (0, 0)) else none
  let goalLevel : ℕ := match dropCell with | some _ => 0 | none => playLevelIndex
  { startX := sx
    startZ := sz
    vert := c.vert
    horiz := c.horiz
    marks := c.marks
    dist := b.dist
    prev := b.prev
    order := b.order
    farthest := b.farthest
    path := path
    dropCell := dropCell
    startCell := ⟨sx, sz, playLevelIndex⟩
    goalCell := ⟨b.farthest.1, b.farthest.2, goalLevel⟩ }

/-! ### Physics: vectors, walls, sphere-vs-AABB, the integrator

Real-number embedding of the physics code of `src/main.js`: the constants
(lines 38, 64-66, 105, 358, 417-421), `sphereVsAabb` (lines 426-477),
`triggerWin` (479-486), `resetLevel` (488-498), `restartGame` (506-524),
`integrateBall` (575-682) and the frame-delta clamp in `animate`
(734-741). -/

/-- A 3-vector of reals (`THREE.Vector3`). -/
structure Vec3 where
  x : ℝ
  y : ℝ
  z : ℝ

/-- A maze wall as used by the collision code: an axis-aligned box given by
its centre (`wall.mesh.position`) and half extents (`wall.half`,
`src/main.js` line 98). -/
structure Wall where
  center : Vec3
  half : Vec3

/-- A collision result of `sphereVsAabb`: contact normal and penetration
depth. -/
structure Contact where
  normal : Vec3
  penetration : ℝ

/-- `cubeSize` (`src/main.js` line 38). -/
noncomputable def cubeSize : ℝ := 10

/-- `floorThickness` (`src/main.js` line 64). -/
noncomputable def floorThickness : ℝ := 0.25

/-- `inner = cubeSize / 2 - 0.7` (`src/main.js` line 66). -/
noncomputable def inner : ℝ := cubeSize / 2 - 0.7

/-- `usableSpan = inner * 2 - 0.8` (`src/main.js` line 106). -/
noncomputable def usableSpan : ℝ := inner * 2 - 0.8

/-- `ballRadius` (`src/main.js` line 358). -/
noncomputable def ballRadius : ℝ := 0.45

/-- `levelYs = [-inner + 2.0, inner - 2.0]` (`src/main.js` line 102). -/
noncomputable def levelYs : List ℝ := [-inner + 2.0, inner - 2.0]

/-- `damping` (`src/main.js` line 419). -/
noncomputable def damping : ℝ := 0.995

/-- `restitution` (`src/main.js` line 420). -/
noncomputable def restitution : ℝ := 0.35

/-- `maxStep = 1 / 120` (`src/main.js` line 577). -/
noncomputable def maxStep : ℝ := 1 / 120

/-- `outerHalf = cubeSize / 2 - ballRadius - 0.18` (`src/main.js` line 586). -/
noncomputable def outerHalf : ℝ := cubeSize / 2 - ballRadius - 0.18

/-- `mazeHalf = usableSpan / 2 - ballRadius * 0.3` (`src/main.js` line 587). -/
noncomputable def mazeHalf : ℝ := usableSpan / 2 - ballRadius * 0.3

/-- `limitX = Math.min(outerHalf, mazeHalf)` (`src/main.js` line 588). -/
noncomputable def limitX : ℝ := min outerHalf mazeHalf

/-- `limitZ = Math.min(outerHalf, mazeHalf)` (`src/main.js` line 589). -/
noncomputable def limitZ : ℝ := min outerHalf mazeHalf

/-- `bottomFloorY = levelYs[0]` (`src/main.js` line 590). -/
noncomputable def bottomFloorY : ℝ := levelYs.getD 0 0

/-- `topFloorY = levelYs[levelYs.length - 1]` (`src/main.js` line 591). -/
noncomputable def topFloorY : ℝ := levelYs.getD (levelYs.length - 1) 0

/-- `bottomY = bottomFloorY + floorThickness * 0.5 - ballRadius * 0.4`
(`src/main.js` lines 592-595). -/
noncomputable def bottomY : ℝ := bottomFloorY + floorThickness * 0.5 - ballRadius * 0.4

/-- `topY = topFloorY + floorThickness * 0.5 + ballRadius * 0.4`
(`src/main.js` lines 596-599). -/
noncomputable def topY : ℝ := topFloorY + floorThickness * 0.5 + ballRadius * 0.4

/-- The JS expression `Math.sign(l) || 1` (`src/main.js` lines 455, 459,
463): sign of `l`, falling back to `1` when `l = 0`. -/
noncomputable def signOr1 (l : ℝ) : ℝ :=
  if 0 < l then 1 else if l < 0 then -1 else 1

/-- `sphereVsAabb(localPos, radius, wall)` (`src/main.js` lines 426-477):
clamp the centre offset to the box to find the closest point; if the
centre coincides with it (`distSq === 0`), push out along the axis with
the smallest distance to a face (sequential strict-min scan); otherwise
return `null` when `distSq >= radius * radius`, else the normalized
offset and `radius - dist`. -/
noncomputable def sphereVsAabb (localPos : Vec3) (radius : ℝ) (wall : Wall) :
    Option Contact :=
  let half := wall.half
  let center := wall.center
  let dx := max (-half.x) (min (localPos.x - center.x) half.x)
  let dy := max (-half.y) (min (localPos.y - center.y) half.y)
  let dz := max (-half.z) (min (localPos.z - center.z) half.z)
  let closestX := center.x + dx
  let closestY := center.y + dy
  let closestZ := center.z + dz
  let nx := localPos.x - closestX
  let ny := localPos.y - closestY
  let nz := localPos.z - closestZ
  let distSq := nx * nx + ny * ny + nz * nz
  if distSq = 0 then
    let lx := localPos.x - center.x
    let ly := localPos.y - center.y
    let lz := localPos.z - center.z
    let distToFaceX := half.x - |lx|
    let distToFaceY := half.y - |ly|
    let distToFaceZ := half.z - |lz|
    let minDist1 := distToFaceX
    let normal1 : Vec3 := ⟨signOr1 lx, 0, 0⟩
    let minDist2 := if distToFaceY < minDist1 then distToFaceY else minDist1
    let normal2 : Vec3 := if distToFaceY < minDist1 then ⟨0, signOr1 ly, 0⟩ else normal1
    let minDist3 := if distToFaceZ < minDist2 then distToFaceZ else minDist2
    let normal3 : Vec3 := if distToFaceZ < minDist2 then ⟨0, 0, signOr1 lz⟩ else normal2
    if radius ≤ minDist3 then none
    else some ⟨normal3, radius - minDist3⟩
  else if radius * radius ≤ distSq then none
  else
    let dist := Real.sqrt distSq
    some ⟨⟨nx / dist, ny / dist, nz / dist⟩, radius - dist⟩

/-- The squared centre-to-closest-point distance computed by
`sphereVsAabb` (`src/main.js` lines 430-443); spec-side measure used to
state the characterization of the collision test. -/
def sphereBoxDistSq (localPos : Vec3) (wall : Wall) : ℝ :=
  let half := wall.half
  let center := wall.center
  let dx := max (-half.x) (min (localPos.x - center.x) half.x)
  let dy := max (-half.y) (min (localPos.y - center.y) half.y)
  let dz := max (-half.z) (min (localPos.z - center.z) half.z)
  let nx := localPos.x - (center.x + dx)
  let ny := localPos.y - (center.y + dy)
  let nz := localPos.z - (center.z + dz)
  nx * nx + ny * ny + nz * nz

/-- The smallest distance-to-face tracked by the degenerate branch of
`sphereVsAabb` (`src/main.js` lines 447-466); spec-side measure. -/
def minFaceDist (localPos : Vec3) (wall : Wall) : ℝ :=
  min (min (wall.half.x - |localPos.x - wall.center.x|)
           (wall.half.y - |localPos.y - wall.center.y|))
      (wall.half.z - |localPos.z - wall.center.z|)

/-- The separation measure that `sphereVsAabb` effectively compares with
the radius: the centre-to-closest distance when the centre is strictly
outside the clamped point, and the smallest distance to a face in the
degenerate case; spec-side measure for the amended claim. -/
noncomputable def sphereSep (localPos : Vec3) (wall : Wall) : ℝ :=
  if sphereBoxDistSq localPos wall = 0 then minFaceDist localPos wall
  else Real.sqrt (sphereBoxDistSq localPos wall)

/-- One axis of the containment bounce (`src/main.js` lines 602-624):
clamp the position into `[lo, hi]` and reflect the velocity with
`restitution` when it points further out. -/
noncomputable def bounceAxis (lo hi p v : ℝ) : ℝ × ℝ :=
  if p < lo then (lo, if v < 0 then v * (-restitution) else v)
  else if hi < p then (hi, if 0 < v then v * (-restitution) else v)
  else (p, v)

/-- One wall of the collision loop body (`src/main.js` lines 627-649):
push the position out along the contact normal and reflect the velocity
when it moves into the wall. -/
noncomputable def collideWall (r : ℝ) (pv : Vec3 × Vec3) (w : Wall) : Vec3 × Vec3 :=
  match sphereVsAabb pv.1 r w with
  | none => pv
  | some res =>
    let p := pv.1
    let v := pv.2
    let p2 : Vec3 := ⟨p.x + res.normal.x * res.penetration,
                      p.y + res.normal.y * res.penetration,
                      p.z + res.normal.z * res.penetration⟩
    let vDotN := v.x * res.normal.x + v.y * res.normal.y + v.z * res.normal.z
    let v2 : Vec3 :=
      if vDotN < 0 then
        ⟨v.x - (1 + restitution) * vDotN * res.normal.x,
         v.y - (1 + restitution) * vDotN * res.normal.y,
         v.z - (1 + restitution) * vDotN * res.normal.z⟩
      else v
    (p2, v2)

/-- One sub-step of `integrateBall` (`src/main.js` lines 601-658):
semi-implicit Euler with cube-local gravity `g` and step `h`, the three
axis bounces, the wall-collision loop, and the final containment clamp. -/
noncomputable def substep (walls : List Wall) (g : Vec3) (h : ℝ)
    (pv : Vec3 × Vec3) : Vec3 × Vec3 :=
  let v1 : Vec3 := ⟨pv.2.x + g.x * h, pv.2.y + g.y * h, pv.2.z + g.z * h⟩
  let p1 : Vec3 := ⟨pv.1.x + v1.x * h, pv.1.y + v1.y * h, pv.1.z + v1.z * h⟩
  let bx := bounceAxis (-limitX) limitX p1.x v1.x
  let ay := bounceAxis bottomY topY p1.y v1.y
  let bz := bounceAxis (-limitZ) limitZ p1.z v1.z
  let pv3 := walls.foldl (collideWall ballRadius) (⟨bx.1, ay.1, bz.1⟩, ⟨bx.2, ay.2, bz.2⟩)
  (⟨max (-limitX) (min limitX pv3.1.x),
    max bottomY (min topY pv3.1.y),
    max (-limitZ) (min limitZ pv3.1.z)⟩, pv3.2)

/-- `steps = Math.max(1, Math.ceil(dt / maxStep))` (`src/main.js`
line 578). -/
noncomputable def numSteps (dt : ℝ) : ℕ := (max 1 ⌈dt / maxStep⌉).toNat

/-- The win test of `integrateBall` (`src/main.js` lines 663-680):
horizontal squared distance below `(cellSize * 0.45)^2` and the ball's
`y` on or slightly above the goal floor. -/
def winHit (goal : Vec3) (cellSize : ℝ) (p : Vec3) : Prop :=
  (p.y ≥ goal.y ∧ p.y ≤ goal.y + floorThickness + ballRadius * 1.5) ∧
  (p.x - goal.x) * (p.x - goal.x) + (p.z - goal.z) * (p.z - goal.z)
    < (cellSize * 0.45) ^ 2

/-- The ball's physics state: cube-local position, velocity, and the
`hasWon` flag (`src/main.js` lines 417-421). -/
structure BallState where
  pos : Vec3
  vel : Vec3
  hasWon : Bool

open Classical in
/-- One call to `integrateBall(dt)` (`src/main.js` lines 575-682):
sub-step the physics, apply damping to the velocity, then run the win
test (which, via `triggerWin`, sets `hasWon` and zeroes the velocity). -/
noncomputable def tick (walls : List Wall) (g : Vec3) (goal : Vec3)
    (cellSize : ℝ) (dt : ℝ) (s : BallState) : BallState :=
  let steps := numSteps dt
  let h := dt / (steps : ℝ)
  let pv := (fun q => substep walls g h q)^[steps] (s.pos, s.vel)
  let v2 : Vec3 := ⟨pv.2.x * damping, pv.2.y * damping, pv.2.z * damping⟩
  if s.hasWon = false ∧ winHit goal cellSize pv.1 then
    ⟨pv.1, ⟨0, 0, 0⟩, true⟩
  else
    ⟨pv.1, v2, s.hasWon⟩

/-- Input of one animation-frame physics call: the current maze walls,
cube-local gravity (determined by the cube's orientation), goal position,
cell size, and the clamped time step. -/
structure TickInput where
  walls : List Wall
  gravity : Vec3
  goal : Vec3
  cellSize : ℝ
  dt : ℝ

/-- A sequence of `integrateBall` calls (the animation loop,
`src/main.js` lines 734-748). -/
noncomputable def runTicks (l : List TickInput) (s : BallState) : BallState :=
  l.foldl (fun st i => tick i.walls i.gravity i.goal i.cellSize i.dt st) s

/-- The frame-delta clamp of `animate` (`src/main.js` line 736):
`dt = Math.min((now - lastTime) / 1000, 1 / 30)` where `delta` is
`now - lastTime` in milliseconds. -/
noncomputable def frameDt (delta : ℝ) : ℝ := min (delta / 1000) (1 / 30)

/-- The ball state produced by `resetLevel()` (`src/main.js` lines
488-498): ball at the level's start position, zero velocity, `hasWon`
cleared. -/
def resetLevelState (startP : Vec3) : BallState := ⟨startP, ⟨0, 0, 0⟩, false⟩

/-- The ball state produced by `restartGame()` (`src/main.js` lines
506-524): start position lifted by `ballRadius * 0.4`, zero velocity,
`hasWon` cleared. -/
noncomputable def restartGameState (startP : Vec3) : BallState :=
  ⟨⟨startP.x, startP.y + ballRadius * 0.4, startP.z⟩, ⟨0, 0, 0⟩, false⟩

/-! ### Basic lemmas about grid updates, neighbours and counting -/

lemma upd2_hit {α : Type} (f : ℕ → ℕ → α) (a b : ℕ) (v : α) : upd2 f a b v a b = v := by
  unfold upd2; simp

lemma upd2_miss {α : Type} (f : ℕ → ℕ → α) {a b x z : ℕ} (v : α)
    (h : ¬(x = a ∧ z = b)) : upd2 f a b v x z = f x z := by
  unfold upd2; rw [if_neg h]

lemma upd2_false_eq {w : ℕ → ℕ → Bool} {i j p q : ℕ} :
    upd2 w i j false p q = false ↔ ((p = i ∧ q = j) ∨ w p q = false) := by
  unfold upd2; split_ifs with h <;> simp [h]

lemma upd2_false_of_false {w : ℕ → ℕ → Bool} {i j p q : ℕ} (h : w p q = false) :
    upd2 w i j false p q = false :=
  upd2_false_eq.mpr (Or.inr h)

lemma upd2_true_of_true {w : ℕ → ℕ → Bool} {i j p q : ℕ} (h : w p q = true) :
    upd2 w i j true p q = true := by
  unfold upd2; split_ifs <;> simp [h]

lemma mem_if_singleton {α : Type} {c : Prop} [Decidable c] {a p : α} :
    p ∈ (if c then [a] else []) ↔ c ∧ p = a := by
  split_ifs with h <;> simp [h]

/-- Characterization of the carve's neighbour list: members are in-bounds,
unvisited, and von-Neumann adjacent to `(x,z)`. -/
lemma mem_neighbors {n : ℕ} {visited : ℕ → ℕ → Bool} {x z : ℕ} {p : ℕ × ℕ}
    (hx : x < n) (hz : z < n) (hp : p ∈ neighbors n visited x z) :
    p.1 < n ∧ p.2 < n ∧ visited p.1 p.2 = false ∧
      ((p.1 = x + 1 ∧ p.2 = z) ∨ (p.1 + 1 = x ∧ p.2 = z) ∨
       (p.1 = x ∧ p.2 = z + 1) ∨ (p.1 = x ∧ p.2 + 1 = z)) := by
  unfold neighbors at hp
  simp only [List.mem_append, mem_if_singleton] at hp
  rcases hp with ((⟨⟨hc, hv⟩, rfl⟩ | ⟨⟨hc, hv⟩, rfl⟩) | ⟨⟨hc, hv⟩, rfl⟩) | ⟨⟨hc, hv⟩, rfl⟩ <;>
    exact ⟨by omega, by omega, hv, by omega⟩

lemma gridCells_mem {n : ℕ} {c : ℕ × ℕ} : c ∈ gridCells n ↔ c.1 < n ∧ c.2 < n := by
  unfold gridCells; simp [Finset.mem_product]

lemma visitedCount_upd {n x z : ℕ} {v : ℕ → ℕ → Bool} (hx : x < n) (hz : z < n)
    (hv : v x z = false) :
    visitedCount n (upd2 v x z true) = visitedCount n v + 1 := by
  unfold visitedCount
  have h1 : (gridCells n).filter (fun c => upd2 v x z true c.1 c.2 = true)
      = insert (x, z) ((gridCells n).filter (fun c => v c.1 c.2 = true)) := by
    ext ⟨c1, c2⟩
    simp only [Finset.mem_filter, Finset.mem_insert, gridCells, Finset.mem_product,
      Finset.mem_range, Prod.mk.injEq, upd2]
    constructor
    · rintro ⟨⟨hb1, hb2⟩, hb3⟩
      by_cases h : c1 = x ∧ c2 = z
      · exact Or.inl h
      · rw [if_neg h] at hb3; exact Or.inr ⟨⟨hb1, hb2⟩, hb3⟩
    · rintro (⟨rfl, rfl⟩ | ⟨⟨hb1, hb2⟩, hb3⟩)
      · exact ⟨⟨hx, hz⟩, by simp⟩
      · refine ⟨⟨hb1, hb2⟩, ?_⟩
        by_cases h : c1 = x ∧ c2 = z
        · obtain ⟨rfl, rfl⟩ := h; simp
        · rw [if_neg h]; exact hb3
  rw [h1, Finset.card_insert_of_not_mem]
  simp [Finset.mem_filter, hv]

lemma clearedVert_upd {n i j : ℕ} {w : ℕ → ℕ → Bool} (hi : i ≤ n) (hj : j < n)
    (hw : w i j = true) :
    (clearedVert n (upd2 w i j false)).card = (clearedVert n w).card + 1 := by
  unfold clearedVert
  have h1 : ((Finset.range (n + 1)) ×ˢ Finset.range n).filter
        (fun c => upd2 w i j false c.1 c.2 = false)
      = insert (i, j) (((Finset.range (n + 1)) ×ˢ Finset.range n).filter
        (fun c => w c.1 c.2 = false)) := by
    ext ⟨c1, c2⟩
    simp only [Finset.mem_filter, Finset.mem_insert, Finset.mem_product, Finset.mem_range,
      Prod.mk.injEq, upd2_false_eq]
    constructor
    · rintro ⟨⟨hb1, hb2⟩, (⟨rfl, rfl⟩ | hb3)⟩
      · exact Or.inl ⟨rfl, rfl⟩
      · exact Or.inr ⟨⟨hb1, hb2⟩, hb3⟩
    · rintro (⟨rfl, rfl⟩ | ⟨⟨hb1, hb2⟩, hb3⟩)
      · exact ⟨⟨by omega, hj⟩, Or.inl ⟨rfl, rfl⟩⟩
      · exact ⟨⟨hb1, hb2⟩, Or.inr hb3⟩
  rw [h1, Finset.card_insert_of_not_mem]
  simp [Finset.mem_filter, hw]

lemma clearedHoriz_upd {n i j : ℕ} {w : ℕ → ℕ → Bool} (hi : i < n) (hj : j ≤ n)
    (hw : w i j = true) :
    (clearedHoriz n (upd2 w i j false)).card = (clearedHoriz n w).card + 1 := by
  unfold clearedHoriz
  have h1 : (Finset.range n ×ˢ Finset.range (n + 1)).filter
        (fun c => upd2 w i j false c.1 c.2 = false)
      = insert (i, j) ((Finset.range n ×ˢ Finset.range (n + 1)).filter
        (fun c => w c.1 c.2 = false)) := by
    ext ⟨c1, c2⟩
    simp only [Finset.mem_filter, Finset.mem_insert, Finset.mem_product, Finset.mem_range,
      Prod.mk.injEq, upd2_false_eq]
    constructor
    · rintro ⟨⟨hb1, hb2⟩, (⟨rfl, rfl⟩ | hb3)⟩
      · exact Or.inl ⟨rfl, rfl⟩
      · exact Or.inr ⟨⟨hb1, hb2⟩, hb3⟩
    · rintro (⟨rfl, rfl⟩ | ⟨⟨hb1, hb2⟩, hb3⟩)
      · exact ⟨⟨hi, by omega⟩, Or.inl ⟨rfl, rfl⟩⟩
      · exact ⟨⟨hb1, hb2⟩, Or.inr hb3⟩
  rw [h1, Finset.card_insert_of_not_mem]
  simp [Finset.mem_filter, hw]

/-! ### Graph lemmas: clearing one wall adds exactly one edge -/

lemma mazeGraph_adj {n : ℕ} {vert horiz : ℕ → ℕ → Bool} {a b : Fin n × Fin n} :
    (mazeGraph n vert horiz).Adj a b ↔ mazeAdj vert horiz (a.1.1, a.2.1) (b.1.1, b.2.1) :=
  Iff.rfl

lemma mazeGraph_le_vert {n : ℕ} {vert horiz : ℕ → ℕ → Bool} {i j : ℕ} :
    mazeGraph n vert horiz ≤ mazeGraph n (upd2 vert i j false) horiz := by
  intro a b hab
  rcases hab with ⟨h1, h2, h3⟩ | ⟨h1, h2, h3⟩ | h | h
  · exact Or.inl ⟨h1, h2, upd2_false_of_false h3⟩
  · exact Or.inr (Or.inl ⟨h1, h2, upd2_false_of_false h3⟩)
  · exact Or.inr (Or.inr (Or.inl h))
  · exact Or.inr (Or.inr (Or.inr h))

lemma mazeGraph_le_horiz {n : ℕ} {vert horiz : ℕ → ℕ → Bool} {i j : ℕ} :
    mazeGraph n vert horiz ≤ mazeGraph n vert (upd2 horiz i j false) := by
  intro a b hab
  rcases hab with h | h | ⟨h1, h2, h3⟩ | ⟨h1, h2, h3⟩
  · exact Or.inl h
  · exact Or.inr (Or.inl h)
  · exact Or.inr (Or.inr (Or.inl ⟨h1, h2, upd2_false_of_false h3⟩))
  · exact Or.inr (Or.inr (Or.inr ⟨h1, h2, upd2_false_of_false h3⟩))

/-- Clearing vertical wall `(i,j)` (with `0 < i`) changes adjacency exactly by
joining `(i-1,j)` and `(i,j)`. -/
lemma mazeAdj_clear_vert {vert horiz : ℕ → ℕ → Bool} {i j : ℕ} (hi : 0 < i)
    (ax az bx bz : ℕ) :
    mazeAdj (upd2 vert i j false) horiz (ax, az) (bx, bz) ↔
      (mazeAdj vert horiz (ax, az) (bx, bz) ∨
        (ax + 1 = i ∧ az = j ∧ bx = i ∧ bz = j) ∨
        (ax = i ∧ az = j ∧ bx + 1 = i ∧ bz = j)) := by
  unfold mazeAdj
  dsimp only
  simp only [upd2_false_eq]
  constructor
  · rintro (⟨h1, h2, (⟨h3, h4⟩ | h5)⟩ | ⟨h1, h2, (⟨h3, h4⟩ | h5)⟩ | hC | hD)
    · right; left; omega
    · left; left; exact ⟨h1, h2, h5⟩
    · right; right; omega
    · left; right; left; exact ⟨h1, h2, h5⟩
    · left; right; right; left; exact hC
    · left; right; right; right; exact hD
  · rintro ((⟨h1, h2, h3⟩ | ⟨h1, h2, h3⟩ | hC | hD) | h | h)
    · left; exact ⟨h1, h2, Or.inr h3⟩
    · right; left; exact ⟨h1, h2, Or.inr h3⟩
    · right; right; left; exact hC
    · right; right; right; exact hD
    · left; exact ⟨by omega, by omega, Or.inl ⟨by omega, by omega⟩⟩
    · right; left; exact ⟨by omega, by omega, Or.inl ⟨by omega, by omega⟩⟩

/-- Clearing horizontal wall `(i,j)` (with `0 < j`) changes adjacency exactly
by joining `(i,j-1)` and `(i,j)`. -/
lemma mazeAdj_clear_horiz {vert horiz : ℕ → ℕ → Bool} {i j : ℕ} (hj : 0 < j)
    (ax az bx bz : ℕ) :
    mazeAdj vert (upd2 horiz i j false) (ax, az) (bx, bz) ↔
      (mazeAdj vert horiz (ax, az) (bx, bz) ∨
        (ax = i ∧ az + 1 = j ∧ bx = i ∧ bz = j) ∨
        (ax = i ∧ az = j ∧ bx = i ∧ bz + 1 = j)) := by
  unfold mazeAdj
  dsimp only
  simp only [upd2_false_eq]
  constructor
  · rintro (hA | hB | ⟨h1, h2, (⟨h3, h4⟩ | h5)⟩ | ⟨h1, h2, (⟨h3, h4⟩ | h5)⟩)
    · left; left; exact hA
    · left; right; left; exact hB
    · right; left; omega
    · left; right; right; left; exact ⟨h1, h2, h5⟩
    · right; right; omega
    · left; right; right; right; exact ⟨h1, h2, h5⟩
  · rintro ((hA | hB | ⟨h1, h2, h3⟩ | ⟨h1, h2, h3⟩) | h | h)
    · left; exact hA
    · right; left; exact hB
    · right; right; left; exact ⟨h1, h2, Or.inr h3⟩
    · right; right; right; exact ⟨h1, h2, Or.inr h3⟩
    · right; right; left; exact ⟨by omega, by omega, Or.inl ⟨by omega, by omega⟩⟩
    · right; right; right; exact ⟨by omega, by omega, Or.inl ⟨by omega, by omega⟩⟩

lemma finPair_eq_iff {n : ℕ} {a : Fin n × Fin n} {p q : ℕ} (hp : p < n) (hq : q < n) :
    a = (⟨p, hp⟩, ⟨q, hq⟩) ↔ (a.1.1 = p ∧ a.2.1 = q) := by
  constructor
  · rintro rfl; exact ⟨rfl, rfl⟩
  · rintro ⟨h1, h2⟩
    exact Prod.ext_iff.mpr ⟨Fin.ext h1, Fin.ext h2⟩

/-- Adding a single edge `{u,v}` to a graph increments the edge count. -/
lemma edgeFinset_card_add_edge {V : Type} [Fintype V] [DecidableEq V]
    {G G' : SimpleGraph V} [DecidableRel G.Adj] [DecidableRel G'.Adj] {u v : V}
    (hnew : ¬ G.Adj u v)
    (hAdj : ∀ a b, G'.Adj a b ↔ (G.Adj a b ∨ (a = u ∧ b = v) ∨ (a = v ∧ b = u))) :
    G'.edgeFinset.card = G.edgeFinset.card + 1 := by
  have hset : G'.edgeFinset = insert s(u, v) G.edgeFinset := by
    ext e
    refine Sym2.ind (fun a b => ?_) e
    simp only [SimpleGraph.mem_edgeFinset, SimpleGraph.mem_edgeSet, Finset.mem_insert,
      Sym2.eq_iff, hAdj]
    tauto
  rw [hset, Finset.card_insert_of_not_mem]
  simp only [SimpleGraph.mem_edgeFinset, SimpleGraph.mem_edgeSet]
  exact hnew

/-- Adding an edge from `u` to an isolated vertex `v` preserves acyclicity:
any cycle would have to enter and leave `v` through the single new edge,
repeating it. -/
lemma isAcyclic_add_edge {V : Type} [DecidableEq V] {G G' : SimpleGraph V} {u v : V} (hne : u ≠ v)
    (hAdj : ∀ a b, G'.Adj a b ↔ (G.Adj a b ∨ (a = u ∧ b = v) ∨ (a = v ∧ b = u)))
    (hiso : ∀ x, ¬ G.Adj v x) (hG : G.IsAcyclic) : G'.IsAcyclic := by
  intro a w hw
  by_cases hv : v ∈ w.support
  · have hc2 := hw.rotate hv
    revert hc2
    generalize w.rotate hv = w2
    intro hc2
    cases w2 with
    | nil => exact hc2.ne_nil rfl
    | @cons _ x _ h1 p =>
      obtain ⟨y, q, h2, heq⟩ := SimpleGraph.Walk.exists_cons_eq_concat h1 p
      have hx1 : x = u := by
        rcases (hAdj v x).mp h1 with hg | ⟨hvu, _⟩ | ⟨_, hxu⟩
        · exact absurd hg (hiso _)
        · exact absurd hvu.symm hne
        · exact hxu
      have hy : y = u := by
        rcases (hAdj y v).mp h2 with hg | ⟨hyu, _⟩ | ⟨_, hvu⟩
        · exact absurd hg.symm (hiso _)
        · exact hyu
        · exact absurd hvu.symm hne
      have hedges : (SimpleGraph.Walk.cons h1 p).edges = q.edges ++ [s(y, v)] := by
        rw [heq, SimpleGraph.Walk.edges_concat, List.concat_eq_append]
      have hnodup : (SimpleGraph.Walk.cons h1 p).edges.Nodup :=
        hc2.toIsCircuit.toIsTrail.edges_nodup
      rw [SimpleGraph.Walk.edges_cons] at hnodup hedges
      have hxy : s(v, x) = s(y, v) := by rw [hx1, hy, Sym2.eq_swap]
      rcases hq2 : q.edges with _ | ⟨e0, qrest⟩
      · rw [hq2, List.nil_append] at hedges
        injection hedges with he0 he1
        have hplen : p.edges.length = p.length := SimpleGraph.Walk.length_edges p
        have h3 := hc2.three_le_length
        rw [SimpleGraph.Walk.length_cons] at h3
        rw [he1] at hplen
        simp only [List.length_nil] at hplen
        omega
      · rw [hq2] at hedges
        rw [List.cons_append] at hedges
        injection hedges with he0 hrest
        have hmem : s(v, x) ∈ p.edges := by
          rw [hrest]
          refine List.mem_append_right _ ?_
          simp [hxy]
        exact (List.nodup_cons.mp hnodup).1 hmem
  · have hmem : ∀ e, e ∈ w.edges → e ∈ G.edgeSet := by
      intro e
      refine Sym2.ind (fun a b he => ?_) e
      have hadj : G'.Adj a b := (SimpleGraph.mem_edgeSet _).mp (w.edges_subset_edgeSet he)
      rcases (hAdj a b).mp hadj with hg | ⟨rfl, rfl⟩ | ⟨rfl, rfl⟩
      · exact (SimpleGraph.mem_edgeSet _).mpr hg
      · exact absurd (SimpleGraph.Walk.snd_mem_support_of_mem_edges w he) hv
      · exact absurd (SimpleGraph.Walk.fst_mem_support_of_mem_edges w he) hv
    exact hG (w.transfer G hmem) (hw.transfer hmem)

/-! ### The carve invariant -/

/-- Invariant of the depth-first carve loop.  `sx, sz` are the start-cell
coordinates.  It packages everything needed to conclude, once the stack is
empty, that the visited set is the whole grid and that the cleared walls
form a spanning tree. -/
structure CarveInv (n sx sz : ℕ) (hsx : sx < n) (hsz : sz < n) (s : CarveState) : Prop where
  stack_bound : ∀ c ∈ s.stack, c.1 < n ∧ c.2 < n
  stack_vis : ∀ c ∈ s.stack, s.visited c.1 c.2 = true
  start_vis : s.visited sx sz = true
  out_unvis : ∀ x z, n ≤ x ∨ n ≤ z → s.visited x z = false
  closed : ∀ x z, x < n → z < n → s.visited x z = true → (x, z) ∉ s.stack →
      (0 < x → s.visited (x - 1) z = true) ∧ (x + 1 < n → s.visited (x + 1) z = true) ∧
      (0 < z → s.visited x (z - 1) = true) ∧ (z + 1 < n → s.visited x (z + 1) = true)
  vert_perim : ∀ i j, i = 0 ∨ n ≤ i ∨ n ≤ j → s.vert i j = true
  horiz_perim : ∀ i j, j = 0 ∨ n ≤ i ∨ n ≤ j → s.horiz i j = true
  edge_vis_vert : ∀ i j, 0 < i → i < n → j < n → s.vert i j = false →
      s.visited (i - 1) j = true ∧ s.visited i j = true
  edge_vis_horiz : ∀ i j, i < n → 0 < j → j < n → s.horiz i j = false →
      s.visited i (j - 1) = true ∧ s.visited i j = true
  reach : ∀ x z (hx : x < n) (hz : z < n), s.visited x z = true →
      (mazeGraph n s.vert s.horiz).Reachable (⟨sx, hsx⟩, ⟨sz, hsz⟩) (⟨x, hx⟩, ⟨z, hz⟩)
  count_walls : clearedCount n s.vert s.horiz + 1 = visitedCount n s.visited
  acyclic : (mazeGraph n s.vert s.horiz).IsAcyclic
  marks_eq : ∀ x z, s.marks x z = (if s.visited x z = true then 1 else 0)

/-- Loop measure: each genuine carve iteration strictly decreases it. -/
def carveMeasure (n : ℕ) (s : CarveState) : ℕ :=
  2 * ((gridCells n).filter (fun c => s.visited c.1 c.2 = false)).card + s.stack.length

lemma unvisitedCard_upd {n x z : ℕ} {v : ℕ → ℕ → Bool} (hx : x < n) (hz : z < n)
    (hv : v x z = false) :
    ((gridCells n).filter (fun c => upd2 v x z true c.1 c.2 = false)).card + 1
      = ((gridCells n).filter (fun c => v c.1 c.2 = false)).card := by
  have hmem : (x, z) ∈ (gridCells n).filter (fun c => v c.1 c.2 = false) := by
    simp [Finset.mem_filter, gridCells_mem, hx, hz, hv]
  have hiff : ∀ c1 c2 : ℕ, upd2 v x z true c1 c2 = false ↔ (¬(c1 = x ∧ c2 = z) ∧ v c1 c2 = false) := by
    intro c1 c2
    unfold upd2
    split_ifs with h <;> simp [h]
  have h1 : (gridCells n).filter (fun c => upd2 v x z true c.1 c.2 = false)
      = ((gridCells n).filter (fun c => v c.1 c.2 = false)).erase (x, z) := by
    ext ⟨c1, c2⟩
    simp only [Finset.mem_filter, Finset.mem_erase, ne_eq, Prod.mk.injEq, hiff]
    constructor
    · rintro ⟨hg, hne, hb⟩
      exact ⟨fun hc => hne ⟨hc.1, hc.2⟩, hg, hb⟩
    · rintro ⟨hne, hg, hb⟩
      exact ⟨hg, fun hc => hne ⟨hc.1, hc.2⟩, hb⟩
  rw [h1, Finset.card_erase_of_mem hmem]
  have := Finset.card_pos.mpr ⟨_, hmem⟩
  omega

lemma if_singleton_eq_nil {α : Type} {c : Prop} [Decidable c] {a : α}
    (h : (if c then [a] else []) = []) : ¬c := by
  intro hc
  rw [if_pos hc] at h
  exact List.cons_ne_nil _ _ h

/-- If the neighbour list is empty, each in-grid neighbour of `(x,z)` is
visited. -/
lemma neighbors_nil {n : ℕ} {v : ℕ → ℕ → Bool} {x z : ℕ}
    (h : (neighbors n v x z).length = 0) :
    (0 < x → v (x - 1) z = true) ∧ (x + 1 < n → v (x + 1) z = true) ∧
    (0 < z → v x (z - 1) = true) ∧ (z + 1 < n → v x (z + 1) = true) := by
  rw [List.length_eq_zero] at h
  unfold neighbors at h
  simp only [List.append_eq_nil] at h
  obtain ⟨⟨⟨h1, h2⟩, h3⟩, h4⟩ := h
  have n1 := if_singleton_eq_nil h1
  have n2 := if_singleton_eq_nil h2
  have n3 := if_singleton_eq_nil h3
  have n4 := if_singleton_eq_nil h4
  refine ⟨fun hx => ?_, fun hx => ?_, fun hz => ?_, fun hz => ?_⟩
  · cases hvb : v (x - 1) z with
    | false => exact absurd ⟨hx, hvb⟩ n1
    | true => rfl
  · cases hvb : v (x + 1) z with
    | false => exact absurd ⟨by omega, hvb⟩ n2
    | true => rfl
  · cases hvb : v x (z - 1) with
    | false => exact absurd ⟨hz, hvb⟩ n3
    | true => rfl
  · cases hvb : v x (z + 1) with
    | false => exact absurd ⟨by omega, hvb⟩ n4
    | true => rfl

/-- An unvisited cell is isolated in the cleared-wall graph (every cleared
wall has both endpoints visited). -/
lemma unvisited_no_adj {n : ℕ} {s : CarveState}
    (hev : ∀ i j, 0 < i → i < n → j < n → s.vert i j = false →
      s.visited (i - 1) j = true ∧ s.visited i j = true)
    (heh : ∀ i j, i < n → 0 < j → j < n → s.horiz i j = false →
      s.visited i (j - 1) = true ∧ s.visited i j = true)
    {nx nz : ℕ} (hnx : nx < n) (hnz : nz < n) (hunvis : s.visited nx nz = false) :
    ∀ bx bz, bx < n → bz < n → ¬ mazeAdj s.vert s.horiz (nx, nz) (bx, bz) := by
  intro bx bz hbx hbz hadj
  rcases hadj with ⟨h1, h2, h3⟩ | ⟨h1, h2, h3⟩ | ⟨h1, h2, h3⟩ | ⟨h1, h2, h3⟩ <;>
    dsimp only at h1 h2 h3
  · have hvis := (hev bx nz (by omega) hbx hnz h3).1
    rw [show bx - 1 = nx by omega, hunvis] at hvis
    exact Bool.noConfusion hvis
  · have hvis := (hev nx nz (by omega) hnx hnz h3).2
    rw [hunvis] at hvis
    exact Bool.noConfusion hvis
  · have hvis := (heh nx bz hnx (by omega) hbz h3).1
    rw [show bz - 1 = nz by omega, hunvis] at hvis
    exact Bool.noConfusion hvis
  · have hvis := (heh nx nz hnx (by omega) hnz h3).2
    rw [hunvis] at hvis
    exact Bool.noConfusion hvis

/-- Preservation of the carve invariant by a push step: the current stack
top `(x,z)` carves through one wall to an unvisited in-bounds neighbour
`(nx,nz)`.  `s1` is `s` with that one wall cleared (characterized
abstractly by the hypotheses), `s2` the final state of the iteration. -/
lemma carve_push_inv {n sx sz : ℕ} {hsx : sx < n} {hsz : sz < n}
    {s : CarveState} (s1 : CarveState) {s2 : CarveState} {x z nx nz : ℕ}
    {rest : List (ℕ × ℕ)}
    (hinv : CarveInv n sx sz hsx hsz s)
    (hs : s.stack = (x, z) :: rest)
    (hx : x < n) (hz : z < n) (hnx : nx < n) (hnz : nz < n)
    (hunvis : s.visited nx nz = false)
    (hvis1 : s1.visited = s.visited)
    (hmarks1 : s1.marks = s.marks)
    (hcount1 : clearedCount n s1.vert s1.horiz = clearedCount n s.vert s.horiz + 1)
    (hperimV1 : ∀ i j, i = 0 ∨ n ≤ i ∨ n ≤ j → s1.vert i j = true)
    (hperimH1 : ∀ i j, j = 0 ∨ n ≤ i ∨ n ≤ j → s1.horiz i j = true)
    (hAdj1 : ∀ ax az bx bz : ℕ,
      mazeAdj s1.vert s1.horiz (ax, az) (bx, bz) ↔
        (mazeAdj s.vert s.horiz (ax, az) (bx, bz) ∨
          (ax = x ∧ az = z ∧ bx = nx ∧ bz = nz) ∨
          (ax = nx ∧ az = nz ∧ bx = x ∧ bz = z)))
    (hvis2 : s2.visited = upd2 s1.visited nx nz true)
    (hstk2 : s2.stack = (nx, nz) :: (x, z) :: rest)
    (hvert2 : s2.vert = s1.vert)
    (hhoriz2 : s2.horiz = s1.horiz)
    (hmarks2 : s2.marks = fun a b => if a = nx ∧ b = nz then s1.marks a b + 1 else s1.marks a b) :
    CarveInv n sx sz hsx hsz s2 ∧ carveMeasure n s2 + 1 = carveMeasure n s := by
  obtain ⟨sb, sv, stv, ou, cl, vp, hp, evv, evh, rch, cw, ac, mk⟩ := hinv
  have hvisxz : s.visited x z = true := sv (x, z) (by rw [hs]; exact List.mem_cons_self _ _)
  have hne2 : ¬(nx = x ∧ nz = z) := by
    rintro ⟨rfl, rfl⟩
    rw [hunvis] at hvisxz
    exact Bool.noConfusion hvisxz
  have hle2 : mazeGraph n s.vert s.horiz ≤ mazeGraph n s1.vert s1.horiz := by
    intro p q hpq
    exact (hAdj1 p.1.1 p.2.1 q.1.1 q.2.1).mpr (Or.inl hpq)
  have hAdjFin : ∀ a b : Fin n × Fin n,
      (mazeGraph n s1.vert s1.horiz).Adj a b ↔
        ((mazeGraph n s.vert s.horiz).Adj a b ∨
          (a = ((⟨x, hx⟩, ⟨z, hz⟩) : Fin n × Fin n) ∧ b = ((⟨nx, hnx⟩, ⟨nz, hnz⟩) : Fin n × Fin n)) ∨
          (a = ((⟨nx, hnx⟩, ⟨nz, hnz⟩) : Fin n × Fin n) ∧ b = ((⟨x, hx⟩, ⟨z, hz⟩) : Fin n × Fin n))) := by
    intro a b
    rw [mazeGraph_adj, mazeGraph_adj, hAdj1 a.1.1 a.2.1 b.1.1 b.2.1]
    constructor
    · rintro (h | ⟨h1, h2, h3, h4⟩ | ⟨h1, h2, h3, h4⟩)
      · exact Or.inl h
      · exact Or.inr (Or.inl ⟨(finPair_eq_iff hx hz).mpr ⟨h1, h2⟩,
          (finPair_eq_iff hnx hnz).mpr ⟨h3, h4⟩⟩)
      · exact Or.inr (Or.inr ⟨(finPair_eq_iff hnx hnz).mpr ⟨h1, h2⟩,
          (finPair_eq_iff hx hz).mpr ⟨h3, h4⟩⟩)
    · rintro (h | ⟨ha, hb⟩ | ⟨ha, hb⟩)
      · exact Or.inl h
      · obtain ⟨ha1, ha2⟩ := (finPair_eq_iff hx hz).mp ha
        obtain ⟨hb1, hb2⟩ := (finPair_eq_iff hnx hnz).mp hb
        exact Or.inr (Or.inl ⟨ha1, ha2, hb1, hb2⟩)
      · obtain ⟨ha1, ha2⟩ := (finPair_eq_iff hnx hnz).mp ha
        obtain ⟨hb1, hb2⟩ := (finPair_eq_iff hx hz).mp hb
        exact Or.inr (Or.inr ⟨ha1, ha2, hb1, hb2⟩)
  have hnewiso : ∀ c : Fin n × Fin n,
      ¬ (mazeGraph n s.vert s.horiz).Adj (⟨nx, hnx⟩, ⟨nz, hnz⟩) c := by
    intro c h
    exact unvisited_no_adj evv evh hnx hnz hunvis c.1.1 c.2.1 c.1.isLt c.2.isLt h
  have hneFin : ((⟨x, hx⟩, ⟨z, hz⟩) : Fin n × Fin n) ≠ (⟨nx, hnx⟩, ⟨nz, hnz⟩) := by
    intro h
    obtain ⟨h1, h2⟩ := (finPair_eq_iff hnx hnz).mp h
    exact hne2 ⟨h1.symm, h2.symm⟩
  refine ⟨⟨?_, ?_, ?_, ?_, ?_, ?_, ?_, ?_, ?_, ?_, ?_, ?_, ?_⟩, ?_⟩
  · -- stack_bound
    intro c hc
    rw [hstk2] at hc
    rcases List.mem_cons.mp hc with rfl | hc2
    · exact ⟨hnx, hnz⟩
    · exact sb c (by rw [hs]; exact hc2)
  · -- stack_vis
    intro c hc
    rw [hstk2] at hc
    rw [hvis2, hvis1]
    rcases List.mem_cons.mp hc with rfl | hc2
    · exact upd2_hit _ _ _ _
    · exact upd2_true_of_true (sv c (by rw [hs]; exact hc2))
  · -- start_vis
    rw [hvis2, hvis1]
    exact upd2_true_of_true stv
  · -- out_unvis
    intro a b hab
    rw [hvis2, hvis1]
    have hne3 : ¬(a = nx ∧ b = nz) := by rintro ⟨rfl, rfl⟩; omega
    rw [upd2_miss _ _ hne3]
    exact ou a b hab
  · -- closed
    intro a b ha hb hvis hstk
    by_cases hab : a = nx ∧ b = nz
    · exfalso
      apply hstk
      rw [hstk2, hab.1, hab.2]
      exact List.mem_cons_self _ _
    · rw [hvis2, hvis1, upd2_miss _ _ hab] at hvis
      have hnotin : (a, b) ∉ s.stack := by
        intro hmem
        apply hstk
        rw [hstk2]
        exact List.mem_cons_of_mem _ (by rw [← hs]; exact hmem)
      obtain ⟨c1, c2, c3, c4⟩ := cl a b ha hb hvis hnotin
      rw [hvis2, hvis1]
      exact ⟨fun h => upd2_true_of_true (c1 h), fun h => upd2_true_of_true (c2 h),
        fun h => upd2_true_of_true (c3 h), fun h => upd2_true_of_true (c4 h)⟩
  · -- vert_perim
    intro i j hij
    rw [hvert2]
    exact hperimV1 i j hij
  · -- horiz_perim
    intro i j hij
    rw [hhoriz2]
    exact hperimH1 i j hij
  · -- edge_vis_vert
    intro i j hi0 hin hjn hw
    rw [hvert2] at hw
    have hadj : mazeAdj s1.vert s1.horiz (i - 1, j) (i, j) :=
      Or.inl ⟨rfl, by omega, hw⟩
    rw [hvis2, hvis1]
    rcases (hAdj1 (i - 1) j i j).mp hadj with hold | ⟨h1, h2, h3, h4⟩ | ⟨h1, h2, h3, h4⟩
    · rcases hold with ⟨_, _, hwo⟩ | ⟨_, habs, _⟩ | ⟨habs, _, _⟩ | ⟨habs, _, _⟩
      · obtain ⟨e1, e2⟩ := evv i j hi0 hin hjn hwo
        exact ⟨upd2_true_of_true e1, upd2_true_of_true e2⟩
      · exact absurd habs (by omega)
      · exact absurd habs (by omega)
      · exact absurd habs (by omega)
    · constructor
      · rw [h1, h2, upd2_miss _ _ (fun hc => hne2 ⟨hc.1.symm, hc.2.symm⟩)]
        · exact hvisxz
      · rw [h3, h4]
        exact upd2_hit _ _ _ _
    · constructor
      · rw [h1, h2]
        exact upd2_hit _ _ _ _
      · rw [h3, h4]
        rw [upd2_miss _ _ (by omega)]
        exact hvisxz
  · -- edge_vis_horiz
    intro i j hin hj0 hjn hw
    rw [hhoriz2] at hw
    have hadj : mazeAdj s1.vert s1.horiz (i, j - 1) (i, j) :=
      Or.inr (Or.inr (Or.inl ⟨rfl, by omega, hw⟩))
    rw [hvis2, hvis1]
    rcases (hAdj1 i (j - 1) i j).mp hadj with hold | ⟨h1, h2, h3, h4⟩ | ⟨h1, h2, h3, h4⟩
    · rcases hold with ⟨_, habs, _⟩ | ⟨_, habs, _⟩ | ⟨_, _, hwo⟩ | ⟨_, habs, _⟩
      · exact absurd habs (by omega)
      · exact absurd habs (by omega)
      · obtain ⟨e1, e2⟩ := evh i j hin hj0 hjn hwo
        exact ⟨upd2_true_of_true e1, upd2_true_of_true e2⟩
      · exact absurd habs (by omega)
    · constructor
      · rw [h1, h2, upd2_miss _ _ (fun hc => hne2 ⟨hc.1.symm, hc.2.symm⟩)]
        · exact hvisxz
      · rw [h3, h4]
        exact upd2_hit _ _ _ _
    · constructor
      · rw [h1, h2]
        exact upd2_hit _ _ _ _
      · rw [h3, h4]
        rw [upd2_miss _ _ (by omega)]
        exact hvisxz
  · -- reach
    intro a b ha hb hvis
    have hgr : mazeGraph n s2.vert s2.horiz = mazeGraph n s1.vert s1.horiz := by
      rw [hvert2, hhoriz2]
    rw [hgr]
    have hreachcur : (mazeGraph n s1.vert s1.horiz).Reachable
        (⟨sx, hsx⟩, ⟨sz, hsz⟩) (⟨x, hx⟩, ⟨z, hz⟩) :=
      (rch x z hx hz hvisxz).mono hle2
    by_cases hab : a = nx ∧ b = nz
    · have hpeq : ((⟨a, ha⟩, ⟨b, hb⟩) : Fin n × Fin n) = (⟨nx, hnx⟩, ⟨nz, hnz⟩) :=
        (finPair_eq_iff hnx hnz).mpr ⟨hab.1, hab.2⟩
      rw [hpeq]
      have hadj : (mazeGraph n s1.vert s1.horiz).Adj (⟨x, hx⟩, ⟨z, hz⟩) (⟨nx, hnx⟩, ⟨nz, hnz⟩) :=
        (hAdjFin _ _).mpr (Or.inr (Or.inl ⟨rfl, rfl⟩))
      exact hreachcur.trans hadj.reachable
    · rw [hvis2, hvis1, upd2_miss _ _ hab] at hvis
      exact (rch a b ha hb hvis).mono hle2
  · -- count_walls
    have hcc : clearedCount n s2.vert s2.horiz = clearedCount n s1.vert s1.horiz := by
      rw [hvert2, hhoriz2]
    rw [hcc, hcount1, hvis2, hvis1, visitedCount_upd hnx hnz hunvis]
    omega
  · -- acyclic
    have hgr : mazeGraph n s2.vert s2.horiz = mazeGraph n s1.vert s1.horiz := by
      rw [hvert2, hhoriz2]
    rw [hgr]
    exact isAcyclic_add_edge hneFin hAdjFin hnewiso ac
  · -- marks_eq
    intro a b
    simp only [hmarks2, hmarks1, hvis2, hvis1]
    by_cases hab : a = nx ∧ b = nz
    · rw [if_pos hab, hab.1, hab.2, upd2_hit, mk nx nz, hunvis]
      simp
    · rw [if_neg hab, upd2_miss _ _ hab]
      exact mk a b
  · -- measure
    unfold carveMeasure
    have hcard := unvisitedCard_upd hnx hnz (hvis1 ▸ hunvis : s1.visited nx nz = false)
    rw [hvis2]
    rw [hstk2, hs]
    have hcard2 : ((gridCells n).filter (fun c => s1.visited c.1 c.2 = false)).card
        = ((gridCells n).filter (fun c => s.visited c.1 c.2 = false)).card := by
      rw [hvis1]
    simp only [List.length_cons]
    omega

/-- Preservation of the carve invariant by a pop step (no unvisited
neighbour). -/
lemma carve_pop_inv {n sx sz : ℕ} {hsx : sx < n} {hsz : sz < n}
    {s : CarveState} {x z : ℕ} {rest : List (ℕ × ℕ)}
    (hinv : CarveInv n sx sz hsx hsz s) (hs : s.stack = (x, z) :: rest)
    (hn0 : (neighbors n s.visited x z).length = 0) :
    CarveInv n sx sz hsx hsz { s with stack := rest } ∧
      carveMeasure n { s with stack := rest } + 1 = carveMeasure n s := by
  obtain ⟨sb, sv, stv, ou, cl, vp, hp, evv, evh, rch, cw, ac, mk⟩ := hinv
  obtain ⟨m1, m2, m3, m4⟩ := neighbors_nil hn0
  refine ⟨⟨?_, ?_, ?_, ?_, ?_, ?_, ?_, ?_, ?_, ?_, ?_, ?_, ?_⟩, ?_⟩
  · exact fun c hc => sb c (by rw [hs]; exact List.mem_cons_of_mem _ hc)
  · exact fun c hc => sv c (by rw [hs]; exact List.mem_cons_of_mem _ hc)
  · exact stv
  · exact ou
  · intro a b ha hb hv hns
    by_cases habxz : a = x ∧ b = z
    · obtain ⟨rfl, rfl⟩ := habxz
      exact ⟨m1, m2, m3, m4⟩
    · have : (a, b) ∉ s.stack := by
        rw [hs]
        intro hmem
        rcases List.mem_cons.mp hmem with heq | hmem2
        · exact habxz ⟨congrArg Prod.fst heq, congrArg Prod.snd heq⟩
        · exact hns hmem2
      exact cl a b ha hb hv this
  · exact vp
  · exact hp
  · exact evv
  · exact evh
  · exact rch
  · exact cw
  · exact ac
  · exact mk
  · unfold carveMeasure
    rw [hs]
    simp only [List.length_cons]
    omega

/-- One carve iteration preserves the invariant and decreases the measure. -/
lemma carveStep_inv {n sx sz : ℕ} {hsx : sx < n} {hsz : sz < n} (rng : ℕ → ℕ)
    {s : CarveState} (hinv : CarveInv n sx sz hsx hsz s) (hne : s.stack ≠ []) :
    CarveInv n sx sz hsx hsz (carveStep n rng s) ∧
      carveMeasure n (carveStep n rng s) + 1 = carveMeasure n s := by
  rcases hs : s.stack with _ | ⟨⟨x, z⟩, rest⟩
  · exact absurd hs hne
  have hx : x < n := (hinv.stack_bound (x, z) (by rw [hs]; exact List.mem_cons_self _ _)).1
  have hz : z < n := (hinv.stack_bound (x, z) (by rw [hs]; exact List.mem_cons_self _ _)).2
  have hstep : carveStep n rng s = carveStepGo n rng s x z rest := by
    unfold carveStep
    rw [hs]
  rw [hstep]
  simp only [carveStepGo]
  by_cases hn0 : (neighbors n s.visited x z).length = 0
  · rw [if_pos hn0]
    exact carve_pop_inv hinv hs hn0
  · rw [if_neg hn0]
    set nxz := (neighbors n s.visited x z).getD
      (rng s.k % (neighbors n s.visited x z).length) (0, 0) with hnxz
    have hlen : rng s.k % (neighbors n s.visited x z).length
        < (neighbors n s.visited x z).length :=
      Nat.mod_lt _ (Nat.pos_of_ne_zero hn0)
    have hmem : nxz ∈ neighbors n s.visited x z := by
      rw [hnxz, List.getD_eq_getElem _ _ hlen]
      exact List.getElem_mem _
    obtain ⟨hb1, hb2, hunvis, hdir⟩ := mem_neighbors hx hz hmem
    rcases hdir with ⟨hd1, hd2⟩ | ⟨hd1, hd2⟩ | ⟨hd1, hd2⟩ | ⟨hd1, hd2⟩
    · -- carve to the right: clear vertWalls[x+1][z]
      rw [if_pos hd1]
      have hwall : s.vert (x + 1) z = true := by
        by_contra hbw
        have hv2 := (hinv.edge_vis_vert (x + 1) z (by omega) (by omega) hz
          (by simpa using hbw)).2
        rw [← hd1, ← hd2, hunvis] at hv2
        exact Bool.noConfusion hv2
      refine carve_push_inv { s with vert := upd2 s.vert (x + 1) z false } hinv hs hx hz hb1 hb2 hunvis rfl rfl ?_ ?_ ?_ ?_ rfl rfl rfl rfl rfl
      · dsimp only
        unfold clearedCount
        rw [clearedVert_upd (by omega) hz hwall]
        omega
      · intro i j hij
        dsimp only
        rw [upd2_miss _ _ (by omega)]
        exact hinv.vert_perim i j hij
      · exact hinv.horiz_perim
      · intro ax az bx bz
        dsimp only
        rw [mazeAdj_clear_vert (by omega) ax az bx bz]
        constructor
        · rintro (h | h | h)
          · exact Or.inl h
          · right; left; omega
          · right; right; omega
        · rintro (h | h | h)
          · exact Or.inl h
          · right; left; omega
          · right; right; omega
    · -- carve to the left: clear vertWalls[x][z]
      rw [if_neg (by omega), if_pos hd1]
      have hwall : s.vert x z = true := by
        by_contra hbw
        have hv2 := (hinv.edge_vis_vert x z (by omega) hx hz (by simpa using hbw)).1
        rw [show x - 1 = nxz.1 by omega, ← hd2, hunvis] at hv2
        exact Bool.noConfusion hv2
      refine carve_push_inv { s with vert := upd2 s.vert x z false } hinv hs hx hz hb1 hb2 hunvis rfl rfl ?_ ?_ ?_ ?_ rfl rfl rfl rfl rfl
      · dsimp only
        unfold clearedCount
        rw [clearedVert_upd (by omega) hz hwall]
        omega
      · intro i j hij
        dsimp only
        rw [upd2_miss _ _ (by omega)]
        exact hinv.vert_perim i j hij
      · exact hinv.horiz_perim
      · intro ax az bx bz
        dsimp only
        rw [mazeAdj_clear_vert (by omega) ax az bx bz]
        constructor
        · rintro (h | h | h)
          · exact Or.inl h
          · right; right; omega
          · right; left; omega
        · rintro (h | h | h)
          · exact Or.inl h
          · right; right; omega
          · right; left; omega
    · -- carve down: clear horizWalls[x][z+1]
      rw [if_neg (by omega), if_neg (by omega), if_pos hd2]
      have hwall : s.horiz x (z + 1) = true := by
        by_contra hbw
        have hv2 := (hinv.edge_vis_horiz x (z + 1) hx (by omega) (by omega)
          (by simpa using hbw)).2
        rw [← hd1, ← hd2, hunvis] at hv2
        exact Bool.noConfusion hv2
      refine carve_push_inv { s with horiz := upd2 s.horiz x (z + 1) false } hinv hs hx hz hb1 hb2 hunvis rfl rfl ?_ ?_ ?_ ?_ rfl rfl rfl rfl rfl
      · dsimp only
        unfold clearedCount
        rw [clearedHoriz_upd hx (by omega) hwall]
        omega
      · exact hinv.vert_perim
      · intro i j hij
        dsimp only
        rw [upd2_miss _ _ (by omega)]
        exact hinv.horiz_perim i j hij
      · intro ax az bx bz
        dsimp only
        rw [mazeAdj_clear_horiz (by omega) ax az bx bz]
        constructor
        · rintro (h | h | h)
          · exact Or.inl h
          · right; left; omega
          · right; right; omega
        · rintro (h | h | h)
          · exact Or.inl h
          · right; left; omega
          · right; right; omega
    · -- carve up: clear horizWalls[x][z]
      rw [if_neg (by omega), if_neg (by omega), if_neg (by omega), if_pos hd2]
      have hwall : s.horiz x z = true := by
        by_contra hbw
        have hv2 := (hinv.edge_vis_horiz x z hx (by omega) hz (by simpa using hbw)).1
        rw [← hd1, show z - 1 = nxz.2 by omega, hunvis] at hv2
        exact Bool.noConfusion hv2
      refine carve_push_inv { s with horiz := upd2 s.horiz x z false } hinv hs hx hz hb1 hb2 hunvis rfl rfl ?_ ?_ ?_ ?_ rfl rfl rfl rfl rfl
      · dsimp only
        unfold clearedCount
        rw [clearedHoriz_upd hx (by omega) hwall]
        omega
      · exact hinv.vert_perim
      · intro i j hij
        dsimp only
        rw [upd2_miss _ _ (by omega)]
        exact hinv.horiz_perim i j hij
      · intro ax az bx bz
        dsimp only
        rw [mazeAdj_clear_horiz (by omega) ax az bx bz]
        constructor
        · rintro (h | h | h)
          · exact Or.inl h
          · right; right; omega
          · right; left; omega
        · rintro (h | h | h)
          · exact Or.inl h
          · right; right; omega
          · right; left; omega

/-- The initial carve state satisfies the invariant. -/
lemma carveInit_inv {n : ℕ} (hn : 0 < n) (rng : ℕ → ℕ) :
    CarveInv n (rng 0 % n) (rng 1 % n) (Nat.mod_lt _ hn) (Nat.mod_lt _ hn)
      (carveInit n rng) := by
  simp only [carveInit]
  have hvismem : ∀ a b : ℕ,
      upd2 (fun _ _ => false) (rng 0 % n) (rng 1 % n) true a b = true ↔
        (a = rng 0 % n ∧ b = rng 1 % n) := by
    intro a b
    unfold upd2
    split_ifs with h <;> simp [h]
  refine ⟨?_, ?_, ?_, ?_, ?_, ?_, ?_, ?_, ?_, ?_, ?_, ?_, ?_⟩ <;> dsimp only
  · rintro c hc
    rcases List.mem_singleton.mp hc with rfl
    exact ⟨Nat.mod_lt _ hn, Nat.mod_lt _ hn⟩
  · rintro c hc
    rcases List.mem_singleton.mp hc with rfl
    exact upd2_hit _ _ _ _
  · exact upd2_hit _ _ _ _
  · intro a b hab
    rw [upd2_miss]
    rintro ⟨rfl, rfl⟩
    rcases hab with h | h
    · exact absurd (Nat.mod_lt (rng 0) hn) (by omega)
    · exact absurd (Nat.mod_lt (rng 1) hn) (by omega)
  · intro a b ha hb hv hns
    obtain ⟨rfl, rfl⟩ := (hvismem a b).mp hv
    exact absurd (List.mem_singleton.mpr rfl) hns
  · exact fun _ _ _ => rfl
  · exact fun _ _ _ => rfl
  · intro i j _ _ _ hw
    exact absurd hw (by simp)
  · intro i j _ _ _ hw
    exact absurd hw (by simp)
  · intro a b ha hb hv
    obtain ⟨rfl, rfl⟩ := (hvismem a b).mp hv
    exact SimpleGraph.Reachable.refl _
  · have hv : (gridCells n).filter
        (fun c => upd2 (fun _ _ => false) (rng 0 % n) (rng 1 % n) true c.1 c.2 = true)
          = {(rng 0 % n, rng 1 % n)} := by
      ext ⟨c1, c2⟩
      simp only [Finset.mem_filter, Finset.mem_singleton, hvismem, Prod.mk.injEq]
      constructor
      · rintro ⟨_, h⟩; exact h
      · rintro ⟨rfl, rfl⟩
        exact ⟨gridCells_mem.mpr ⟨Nat.mod_lt _ hn, Nat.mod_lt _ hn⟩, rfl, rfl⟩
    have hcv : clearedVert n (fun _ _ => true) = ∅ := by
      unfold clearedVert
      ext c
      simp
    have hch : clearedHoriz n (fun _ _ => true) = ∅ := by
      unfold clearedHoriz
      ext c
      simp
    unfold visitedCount clearedCount
    rw [hv, hcv, hch]
    simp
  · intro v w hw
    cases w with
    | nil => exact hw.ne_nil rfl
    | cons h p =>
      rcases h with ⟨_, _, h3⟩ | ⟨_, _, h3⟩ | ⟨_, _, h3⟩ | ⟨_, _, h3⟩ <;> exact Bool.noConfusion h3
  · intro a b
    by_cases hab : a = rng 0 % n ∧ b = rng 1 % n
    · rw [if_pos hab, if_pos ((hvismem a b).mpr hab)]
    · rw [if_neg hab, if_neg (fun hv => hab ((hvismem a b).mp hv))]

/-- The initial carve measure is below the fuel `2 * n * n`. -/
lemma carveInit_measure {n : ℕ} (hn : 0 < n) (rng : ℕ → ℕ) :
    carveMeasure n (carveInit n rng) ≤ 2 * n * n := by
  unfold carveMeasure carveInit
  dsimp only
  have hsub : (gridCells n).filter
      (fun c => upd2 (fun _ _ => false) (rng 0 % n) (rng 1 % n) true c.1 c.2 = false)
        ⊂ gridCells n := by
    refine Finset.filter_ssubset.mpr ?_
    refine ⟨(rng 0 % n, rng 1 % n), gridCells_mem.mpr ⟨Nat.mod_lt _ hn, Nat.mod_lt _ hn⟩, ?_⟩
    rw [upd2_hit]
    simp
  have hlt := Finset.card_lt_card hsub
  have hg : (gridCells n).card = n * n := by
    unfold gridCells
    rw [Finset.card_product, Finset.card_range]
  simp only [List.length_cons, List.length_nil]
  have h2 : 2 * n * n = 2 * (n * n) := by ring
  omega

/-- Running the carve loop for at least the measure's worth of fuel keeps
the invariant and empties the stack. -/
lemma carveLoop_full {n sx sz : ℕ} {hsx : sx < n} {hsz : sz < n} (rng : ℕ → ℕ) :
    ∀ (fuel : ℕ) (s : CarveState), CarveInv n sx sz hsx hsz s →
      carveMeasure n s ≤ fuel →
      CarveInv n sx sz hsx hsz (carveLoop n rng fuel s) ∧
        (carveLoop n rng fuel s).stack = [] := by
  intro fuel
  induction fuel with
  | zero =>
    intro s hinv hm
    refine ⟨hinv, ?_⟩
    have hlen : s.stack.length = 0 := by
      unfold carveMeasure at hm
      omega
    exact List.length_eq_zero.mp hlen
  | succ fuel ih =>
    intro s hinv hm
    simp only [carveLoop]
    by_cases hse : s.stack = []
    · rw [if_pos hse]
      exact ⟨hinv, hse⟩
    · rw [if_neg hse]
      obtain ⟨hinv2, hm2⟩ := carveStep_inv rng hinv hse
      exact ih _ hinv2 (by omega)

/-- The completed carve satisfies the invariant with an empty stack. -/
lemma carve_inv {n : ℕ} (hn : 0 < n) (rng : ℕ → ℕ) :
    CarveInv n (rng 0 % n) (rng 1 % n) (Nat.mod_lt _ hn) (Nat.mod_lt _ hn) (carve n rng) ∧
      (carve n rng).stack = [] :=
  carveLoop_full rng (2 * n * n) _ (carveInit_inv hn rng) (carveInit_measure hn rng)

/-- After the carve, every in-grid cell is visited: the visited set contains
the start and is closed under grid adjacency once the stack is empty. -/
lemma carve_all_visited {n : ℕ} (hn : 0 < n) (rng : ℕ → ℕ) :
    ∀ x z, x < n → z < n → (carve n rng).visited x z = true := by
  obtain ⟨inv, hstk⟩ := carve_inv hn rng
  have hclosed : ∀ a b, a < n → b < n → (carve n rng).visited a b = true →
      (0 < a → (carve n rng).visited (a - 1) b = true) ∧
      (a + 1 < n → (carve n rng).visited (a + 1) b = true) ∧
      (0 < b → (carve n rng).visited a (b - 1) = true) ∧
      (b + 1 < n → (carve n rng).visited a (b + 1) = true) :=
    fun a b ha hb hv => inv.closed a b ha hb hv (by rw [hstk]; exact List.not_mem_nil _)
  have hcol : ∀ x0 z0, x0 < n → z0 < n → (carve n rng).visited x0 z0 = true →
      ∀ x, x < n → (carve n rng).visited x z0 = true := by
    intro x0 z0 hx0 hz0 hv0
    have hup : ∀ d, x0 + d < n → (carve n rng).visited (x0 + d) z0 = true := by
      intro d
      induction d with
      | zero => intro _; exact hv0
      | succ d ih =>
        intro hd
        have hvd := ih (by omega)
        exact (hclosed (x0 + d) z0 (by omega) hz0 hvd).2.1 (by omega)
    have hdown : ∀ d, d ≤ x0 → (carve n rng).visited (x0 - d) z0 = true := by
      intro d
      induction d with
      | zero => intro _; exact hv0
      | succ d ih =>
        intro hd
        have hvd := ih (by omega)
        have hstepv := (hclosed (x0 - d) z0 (by omega) hz0 hvd).1 (by omega)
        rw [show x0 - d - 1 = x0 - (d + 1) by omega] at hstepv
        exact hstepv
    intro x hxn
    rcases le_or_lt x0 x with hle | hlt
    · have h := hup (x - x0) (by omega)
      rw [show x0 + (x - x0) = x by omega] at h
      exact h
    · have h := hdown (x0 - x) (by omega)
      rw [show x0 - (x0 - x) = x by omega] at h
      exact h
  have hrow : ∀ x0 z0, x0 < n → z0 < n → (carve n rng).visited x0 z0 = true →
      ∀ z, z < n → (carve n rng).visited x0 z = true := by
    intro x0 z0 hx0 hz0 hv0
    have hup : ∀ d, z0 + d < n → (carve n rng).visited x0 (z0 + d) = true := by
      intro d
      induction d with
      | zero => intro _; exact hv0
      | succ d ih =>
        intro hd
        have hvd := ih (by omega)
        exact (hclosed x0 (z0 + d) hx0 (by omega) hvd).2.2.2 (by omega)
    have hdown : ∀ d, d ≤ z0 → (carve n rng).visited x0 (z0 - d) = true := by
      intro d
      induction d with
      | zero => intro _; exact hv0
      | succ d ih =>
        intro hd
        have hvd := ih (by omega)
        have hstepv := (hclosed x0 (z0 - d) hx0 (by omega) hvd).2.2.1 (by omega)
        rw [show z0 - d - 1 = z0 - (d + 1) by omega] at hstepv
        exact hstepv
    intro z hzn
    rcases le_or_lt z0 z with hle | hlt
    · have h := hup (z - z0) (by omega)
      rw [show z0 + (z - z0) = z by omega] at h
      exact h
    · have h := hdown (z0 - z) (by omega)
      rw [show z0 - (z0 - z) = z by omega] at h
      exact h
  intro x z hx hz
  have h1 : (carve n rng).visited x (rng 1 % n) = true :=
    hcol (rng 0 % n) (rng 1 % n) (Nat.mod_lt _ hn) (Nat.mod_lt _ hn) inv.start_vis x hx
  exact hrow x (rng 1 % n) hx (Nat.mod_lt _ hn) h1 z hz

/-- After the carve, the visited count is the full grid. -/
lemma carve_visitedCount {n : ℕ} (hn : 0 < n) (rng : ℕ → ℕ) :
    visitedCount n (carve n rng).visited = n * n := by
  unfold visitedCount
  rw [Finset.filter_true_of_mem]
  · unfold gridCells
    rw [Finset.card_product, Finset.card_range]
  · intro c hc
    obtain ⟨h1, h2⟩ := gridCells_mem.mp hc
    exact carve_all_visited hn rng c.1 c.2 h1 h2

/-! ### The BFS invariant -/

/-- Number of grid cells with an assigned BFS distance. -/
def assignedCount (n : ℕ) (s : BfsState) : ℕ :=
  ((gridCells n).filter (fun c => s.dist c.1 c.2 ≠ -1)).card

/-- Number of grid cells still unassigned. -/
def unassignedCountB (n : ℕ) (s : BfsState) : ℕ :=
  ((gridCells n).filter (fun c => s.dist c.1 c.2 = -1)).card

/-- BFS loop measure. -/
def bfsMeasure (n : ℕ) (s : BfsState) : ℕ := 2 * unassignedCountB n s + s.queue.length

/-- The `farthest`-update step (`src/main.js` lines 224-227) as a fold
function over the dequeue order. -/
def farStep (dist : ℕ → ℕ → Int) (b c : ℕ × ℕ) : ℕ × ℕ :=
  if dist b.1 b.2 < dist c.1 c.2 then c else b

/-- Shared part of the BFS invariant (holds also in the middle of one
iteration). -/
structure BfsCore (n sx sz : ℕ) (s : BfsState) : Prop where
  q_bound : ∀ c ∈ s.queue, c.1 < n ∧ c.2 < n
  q_assigned : ∀ c ∈ s.queue, s.dist c.1 c.2 ≠ -1
  q_nodup : s.queue.Nodup
  dist_vals : ∀ a b, s.dist a b = -1 ∨ 0 ≤ s.dist a b
  start_dist : s.dist sx sz = 0
  far_bound : s.farthest.1 < n ∧ s.farthest.2 < n
  far_assigned : s.dist s.farthest.1 s.farthest.2 ≠ -1
  far_max : ∀ a b, a < n → b < n → (a, b) ∉ s.queue →
      s.dist a b ≤ s.dist s.farthest.1 s.farthest.2
  far_fold : s.farthest = s.order.foldl (farStep s.dist) (sx, sz)
  order_assigned : ∀ c ∈ s.order, s.dist c.1 c.2 ≠ -1
  prev_chain : ∀ a b, a < n → b < n → s.dist a b ≠ -1 → ¬(a = sx ∧ b = sz) →
      ∃ p : ℕ × ℕ, s.prev a b = some p ∧ p.1 < n ∧ p.2 < n ∧
        s.dist p.1 p.2 = s.dist a b - 1
  zero_start : ∀ a b, a < n → b < n → s.dist a b = 0 → a = sx ∧ b = sz
  dist_lt_count : ∀ a b, a < n → b < n → s.dist a b ≠ -1 →
      s.dist a b < (assignedCount n s : Int)

/-- The BFS loop invariant (between iterations). -/
structure BfsInv (n sx sz : ℕ) (vert horiz : ℕ → ℕ → Bool) (s : BfsState)
    extends BfsCore n sx sz s : Prop where
  closure : ∀ a b, a < n → b < n → s.dist a b ≠ -1 → (a, b) ∉ s.queue →
      (0 < a → vert a b = false → s.dist (a - 1) b ≠ -1) ∧
      (a + 1 < n → vert (a + 1) b = false → s.dist (a + 1) b ≠ -1) ∧
      (0 < b → horiz a b = false → s.dist a (b - 1) ≠ -1) ∧
      (b + 1 < n → horiz a (b + 1) = false → s.dist a (b + 1) ≠ -1)
  order_start : (s.order = [] ∧ s.queue = [(sx, sz)] ∧ s.farthest = (sx, sz)) ∨
      s.order.head? = some (sx, sz)

/-- The mid-iteration invariant: the dequeued cell `(x,z)` is temporarily
exempt from the closure property while its neighbours are being relaxed. -/
structure BfsMid (n sx sz : ℕ) (vert horiz : ℕ → ℕ → Bool) (x z : ℕ) (s : BfsState)
    extends BfsCore n sx sz s : Prop where
  closure_except : ∀ a b, a < n → b < n → s.dist a b ≠ -1 → (a, b) ∉ s.queue →
      ¬(a = x ∧ b = z) →
      (0 < a → vert a b = false → s.dist (a - 1) b ≠ -1) ∧
      (a + 1 < n → vert (a + 1) b = false → s.dist (a + 1) b ≠ -1) ∧
      (0 < b → horiz a b = false → s.dist a (b - 1) ≠ -1) ∧
      (b + 1 < n → horiz a (b + 1) = false → s.dist a (b + 1) ≠ -1)
  order_head : s.order.head? = some (sx, sz)

/-- Folding `farStep` is unchanged when the distance map is replaced by one
that agrees on the list elements and the seed.  (During a relax, distances
of already-assigned cells never change.) -/
lemma foldl_farStep_congr (d1 d2 : ℕ → ℕ → Int) :
    ∀ (l : List (ℕ × ℕ)) (b : ℕ × ℕ), (∀ c ∈ l, d1 c.1 c.2 = d2 c.1 c.2) →
      d1 b.1 b.2 = d2 b.1 b.2 →
      l.foldl (farStep d1) b = l.foldl (farStep d2) b := by
  intro l
  induction l with
  | nil => intro b _ _; rfl
  | cons c t ih =>
    intro b hl hb
    simp only [List.foldl_cons]
    have hc := hl c (List.mem_cons_self _ _)
    have hstep : farStep d1 b c = farStep d2 b c := by
      unfold farStep
      rw [hb, hc]
    rw [hstep]
    apply ih
    · intro e he
      exact hl e (List.mem_cons_of_mem _ he)
    · unfold farStep
      split_ifs
      · exact hc
      · exact hb

/-- The strict-improvement fold computes the first element attaining the
maximum: later elements of equal value never replace the accumulator. -/
lemma foldl_farStep_first_max (d : ℕ → ℕ → Int) :
    ∀ (l : List (ℕ × ℕ)) (a : ℕ × ℕ),
      (∀ c ∈ l, d c.1 c.2 ≤ d (l.foldl (farStep d) a).1 (l.foldl (farStep d) a).2) ∧
      d a.1 a.2 ≤ d (l.foldl (farStep d) a).1 (l.foldl (farStep d) a).2 ∧
      (a :: l).find? (fun c => d c.1 c.2 == d (l.foldl (farStep d) a).1 (l.foldl (farStep d) a).2)
        = some (l.foldl (farStep d) a) := by
  intro l
  induction l with
  | nil =>
    intro a
    refine ⟨fun c hc => absurd hc (List.not_mem_nil c), le_refl _, ?_⟩
    simp only [List.foldl_nil]
    exact @List.find?_cons_of_pos (ℕ × ℕ)
      (fun c => d c.1 c.2 == d a.1 a.2) a [] (by simp)
  | cons c t ih =>
    intro a
    simp only [List.foldl_cons]
    by_cases hlt : d a.1 a.2 < d c.1 c.2
    · have hstep : farStep d a c = c := by unfold farStep; rw [if_pos hlt]
      rw [hstep]
      obtain ⟨ih1, ih2, ih3⟩ := ih c
      refine ⟨?_, ?_, ?_⟩
      · intro e he
        rcases List.mem_cons.mp he with rfl | he2
        · exact ih2
        · exact ih1 e he2
      · exact le_of_lt (lt_of_lt_of_le hlt ih2)
      · have hna : ¬ ((fun e : ℕ × ℕ => d e.1 e.2 == d (t.foldl (farStep d) c).1
            (t.foldl (farStep d) c).2) a = true) := by
          simp only [beq_iff_eq]
          intro heq
          have := lt_of_lt_of_le hlt ih2
          omega
        rw [@List.find?_cons_of_neg (ℕ × ℕ)
          (fun e => d e.1 e.2 == d (t.foldl (farStep d) c).1 (t.foldl (farStep d) c).2)
          a (c :: t) hna]
        exact ih3
    · have hstep : farStep d a c = a := by unfold farStep; rw [if_neg hlt]
      rw [hstep]
      obtain ⟨ih1, ih2, ih3⟩ := ih a
      have hca : d c.1 c.2 ≤ d a.1 a.2 := by omega
      refine ⟨?_, ih2, ?_⟩
      · intro e he
        rcases List.mem_cons.mp he with rfl | he2
        · exact le_trans hca ih2
        · exact ih1 e he2
      · by_cases hpa : d a.1 a.2 = d (t.foldl (farStep d) a).1 (t.foldl (farStep d) a).2
        · have hside : ((fun e : ℕ × ℕ => d e.1 e.2 == d (t.foldl (farStep d) a).1
              (t.foldl (farStep d) a).2) a) = true := by
            simp only [beq_iff_eq]
            exact hpa
          rw [@List.find?_cons_of_pos (ℕ × ℕ)
            (fun e => d e.1 e.2 == d (t.foldl (farStep d) a).1 (t.foldl (farStep d) a).2)
            a t hside] at ih3
          rw [@List.find?_cons_of_pos (ℕ × ℕ)
            (fun e => d e.1 e.2 == d (t.foldl (farStep d) a).1 (t.foldl (farStep d) a).2)
            a (c :: t) hside]
          exact ih3
        · have hna : ¬ ((fun e : ℕ × ℕ => d e.1 e.2 == d (t.foldl (farStep d) a).1
              (t.foldl (farStep d) a).2) a = true) := by
            simp only [beq_iff_eq]
            exact hpa
          rw [@List.find?_cons_of_neg (ℕ × ℕ)
            (fun e => d e.1 e.2 == d (t.foldl (farStep d) a).1 (t.foldl (farStep d) a).2)
            a t hna] at ih3
          rw [@List.find?_cons_of_neg (ℕ × ℕ)
            (fun e => d e.1 e.2 == d (t.foldl (farStep d) a).1 (t.foldl (farStep d) a).2)
            a (c :: t) hna]
          have hnc : ¬ ((fun e : ℕ × ℕ => d e.1 e.2 == d (t.foldl (farStep d) a).1
              (t.foldl (farStep d) a).2) c = true) := by
            simp only [beq_iff_eq]
            intro heq
            apply hpa
            omega
          rw [@List.find?_cons_of_neg (ℕ × ℕ)
            (fun e => d e.1 e.2 == d (t.foldl (farStep d) a).1 (t.foldl (farStep d) a).2)
            c t hnc]
          exact ih3

lemma unassignedCard_upd {n a b : ℕ} {f : ℕ → ℕ → Int} {v : Int} (ha : a < n) (hb : b < n)
    (hun : f a b = -1) (hv : v ≠ -1) :
    ((gridCells n).filter (fun c => upd2 f a b v c.1 c.2 = -1)).card + 1
      = ((gridCells n).filter (fun c => f c.1 c.2 = -1)).card := by
  have hmem : (a, b) ∈ (gridCells n).filter (fun c => f c.1 c.2 = -1) := by
    simp [Finset.mem_filter, gridCells_mem, ha, hb, hun]
  have hiff : ∀ c1 c2 : ℕ, upd2 f a b v c1 c2 = -1 ↔ (¬(c1 = a ∧ c2 = b) ∧ f c1 c2 = -1) := by
    intro c1 c2
    unfold upd2
    split_ifs with h <;> simp [h, hv]
  have h1 : (gridCells n).filter (fun c => upd2 f a b v c.1 c.2 = -1)
      = ((gridCells n).filter (fun c => f c.1 c.2 = -1)).erase (a, b) := by
    ext ⟨c1, c2⟩
    simp only [Finset.mem_filter, Finset.mem_erase, ne_eq, Prod.mk.injEq, hiff]
    constructor
    · rintro ⟨hg, hne, hf⟩
      exact ⟨fun hc => hne ⟨hc.1, hc.2⟩, hg, hf⟩
    · rintro ⟨hne, hg, hf⟩
      exact ⟨hg, fun hc => hne ⟨hc.1, hc.2⟩, hf⟩
  rw [h1, Finset.card_erase_of_mem hmem]
  have := Finset.card_pos.mpr ⟨_, hmem⟩
  omega

lemma assignedCard_upd {n a b : ℕ} {f : ℕ → ℕ → Int} {v : Int} (ha : a < n) (hb : b < n)
    (hun : f a b = -1) (hv : v ≠ -1) :
    ((gridCells n).filter (fun c => upd2 f a b v c.1 c.2 ≠ -1)).card
      = ((gridCells n).filter (fun c => f c.1 c.2 ≠ -1)).card + 1 := by
  have hiff : ∀ c1 c2 : ℕ, upd2 f a b v c1 c2 ≠ -1 ↔ ((c1 = a ∧ c2 = b) ∨ f c1 c2 ≠ -1) := by
    intro c1 c2
    unfold upd2
    split_ifs with h <;> simp [h, hv]
  have h1 : (gridCells n).filter (fun c => upd2 f a b v c.1 c.2 ≠ -1)
      = insert (a, b) ((gridCells n).filter (fun c => f c.1 c.2 ≠ -1)) := by
    ext ⟨c1, c2⟩
    simp only [Finset.mem_filter, Finset.mem_insert, Prod.mk.injEq, hiff]
    constructor
    · rintro ⟨hg, (⟨rfl, rfl⟩ | hf)⟩
      · exact Or.inl ⟨rfl, rfl⟩
      · exact Or.inr ⟨hg, hf⟩
    · rintro (⟨rfl, rfl⟩ | ⟨hg, hf⟩)
      · exact ⟨gridCells_mem.mpr ⟨ha, hb⟩, Or.inl ⟨rfl, rfl⟩⟩
      · exact ⟨hg, Or.inr hf⟩
  rw [h1, Finset.card_insert_of_not_mem]
  simp [Finset.mem_filter, hun]

/-- One relaxation preserves the mid-iteration invariant; moreover it never
changes the distance of an already-assigned cell, it leaves the guarded
neighbour assigned whenever the guard holds, and it does not increase the
loop measure. -/
lemma relax_mid {n sx sz : ℕ} {vert horiz : ℕ → ℕ → Bool} {x z : ℕ} {s : BfsState}
    (c : Prop) [Decidable c] (nb : ℕ × ℕ) (d : Int)
    (hx : x < n) (hz : z < n)
    (hdeq : s.dist x z = d) (hd0 : 0 ≤ d)
    (hnb : c → nb.1 < n ∧ nb.2 < n)
    (hmid : BfsMid n sx sz vert horiz x z s) :
    BfsMid n sx sz vert horiz x z (relax c x z d nb s) ∧
    (∀ a b, s.dist a b ≠ -1 → (relax c x z d nb s).dist a b = s.dist a b) ∧
    (c → (relax c x z d nb s).dist nb.1 nb.2 ≠ -1) ∧
    bfsMeasure n (relax c x z d nb s) ≤ bfsMeasure n s := by
  unfold relax
  by_cases hcond : c ∧ s.dist nb.1 nb.2 = -1
  · rw [if_pos hcond]
    obtain ⟨hc, hun⟩ := hcond
    obtain ⟨hnb1, hnb2⟩ := hnb hc
    have hvne : d + 1 ≠ -1 := by omega
    have hstab : ∀ a b, s.dist a b ≠ -1 → upd2 s.dist nb.1 nb.2 (d + 1) a b = s.dist a b := by
      intro a b hab
      refine upd2_miss _ _ (fun hc2 => hab ?_)
      rw [hc2.1, hc2.2]
      exact hun
    have hxza : s.dist x z ≠ -1 := by rw [hdeq]; omega
    have hnbq : nb ∉ s.queue := fun hmem => (hmid.q_assigned nb hmem) hun
    obtain ⟨core, clx, ohead⟩ := hmid
    have hsa : s.dist sx sz ≠ -1 := by rw [core.start_dist]; decide
    refine ⟨⟨⟨?_, ?_, ?_, ?_, ?_, ?_, ?_, ?_, ?_, ?_, ?_, ?_, ?_⟩, ?_, ?_⟩, ?_, ?_, ?_⟩ <;>
      (try dsimp only)
    · -- q_bound
      intro e he
      rcases List.mem_append.mp he with he2 | he2
      · exact core.q_bound e he2
      · rcases List.mem_singleton.mp he2 with rfl
        exact ⟨hnb1, hnb2⟩
    · -- q_assigned
      intro e he
      rcases List.mem_append.mp he with he2 | he2
      · rw [hstab e.1 e.2 (core.q_assigned e he2)]
        exact core.q_assigned e he2
      · rcases List.mem_singleton.mp he2 with rfl
        rw [upd2_hit]
        exact hvne
    · -- q_nodup
      simp only [List.nodup_append, List.nodup_cons, List.not_mem_nil, not_false_eq_true,
        List.nodup_nil, and_true, true_and]
      refine ⟨core.q_nodup, ?_⟩
      intro e he hee
      rcases List.mem_singleton.mp hee with rfl
      exact hnbq he
    · -- dist_vals
      intro a b
      by_cases hab : a = nb.1 ∧ b = nb.2
      · rw [hab.1, hab.2, upd2_hit]
        right
        omega
      · rw [upd2_miss _ _ hab]
        exact core.dist_vals a b
    · -- start_dist
      rw [hstab sx sz hsa]
      exact core.start_dist
    · -- far_bound
      exact core.far_bound
    · -- far_assigned
      rw [hstab _ _ core.far_assigned]
      exact core.far_assigned
    · -- far_max
      intro a b ha hb hnotin
      have hnin : (a, b) ∉ s.queue := fun hm => hnotin (List.mem_append_left _ hm)
      have hne2 : ¬(a = nb.1 ∧ b = nb.2) := by
        rintro ⟨rfl, rfl⟩
        exact hnotin (List.mem_append_right _ (List.mem_singleton.mpr rfl))
      rw [upd2_miss _ _ hne2, hstab _ _ core.far_assigned]
      exact core.far_max a b ha hb hnin
    · -- far_fold
      have hcong := foldl_farStep_congr (upd2 s.dist nb.1 nb.2 (d + 1)) s.dist s.order (sx, sz)
        (fun e he => hstab e.1 e.2 (core.order_assigned e he)) (hstab sx sz hsa)
      rw [hcong]
      exact core.far_fold
    · -- order_assigned
      intro e he
      rw [hstab _ _ (core.order_assigned e he)]
      exact core.order_assigned e he
    · -- prev_chain
      intro a b ha hb hab hnexz
      by_cases habnb : a = nb.1 ∧ b = nb.2
      · refine ⟨(x, z), ?_, hx, hz, ?_⟩
        · rw [habnb.1, habnb.2, upd2_hit]
        · rw [habnb.1, habnb.2, upd2_hit, hstab x z hxza, hdeq]
          ring
      · rw [upd2_miss _ _ habnb] at hab
        obtain ⟨p, hp1, hp2, hp3, hp4⟩ := core.prev_chain a b ha hb hab hnexz
        refine ⟨p, ?_, hp2, hp3, ?_⟩
        · rw [upd2_miss _ _ habnb]
          exact hp1
        · have hdab : 0 < s.dist a b := by
            rcases core.dist_vals a b with h | h
            · exact absurd h hab
            · rcases lt_or_eq_of_le h with h2 | h2
              · exact h2
              · exact absurd (core.zero_start a b ha hb h2.symm) hnexz
          have hpa : s.dist p.1 p.2 ≠ -1 := by omega
          rw [hstab _ _ hpa, upd2_miss _ _ habnb, hp4]
    · -- zero_start
      intro a b ha hb h0
      by_cases hab : a = nb.1 ∧ b = nb.2
      · rw [hab.1, hab.2, upd2_hit] at h0
        omega
      · rw [upd2_miss _ _ hab] at h0
        exact core.zero_start a b ha hb h0
    · -- dist_lt_count
      have hcnt : assignedCount n { s with
          dist := upd2 s.dist nb.1 nb.2 (d + 1)
          prev := upd2 s.prev nb.1 nb.2 (some (x, z))
          queue := s.queue ++ [nb] } = assignedCount n s + 1 := by
        unfold assignedCount
        exact assignedCard_upd hnb1 hnb2 hun hvne
      intro a b ha hb hab
      rw [hcnt]
      by_cases habnb : a = nb.1 ∧ b = nb.2
      · rw [habnb.1, habnb.2, upd2_hit]
        have := core.dist_lt_count x z hx hz hxza
        rw [hdeq] at this
        push_cast
        omega
      · rw [upd2_miss _ _ habnb] at hab ⊢
        have := core.dist_lt_count a b ha hb hab
        push_cast
        omega
    · -- closure_except
      intro a b ha hb hab hnotin hnexz
      have hne2 : ¬(a = nb.1 ∧ b = nb.2) := by
        rintro ⟨rfl, rfl⟩
        exact hnotin (List.mem_append_right _ (List.mem_singleton.mpr rfl))
      rw [upd2_miss _ _ hne2] at hab
      have hnin : (a, b) ∉ s.queue := fun hm => hnotin (List.mem_append_left _ hm)
      obtain ⟨e1, e2, e3, e4⟩ := clx a b ha hb hab hnin hnexz
      refine ⟨fun h1 h2 => ?_, fun h1 h2 => ?_, fun h1 h2 => ?_, fun h1 h2 => ?_⟩
      · rw [hstab _ _ (e1 h1 h2)]; exact e1 h1 h2
      · rw [hstab _ _ (e2 h1 h2)]; exact e2 h1 h2
      · rw [hstab _ _ (e3 h1 h2)]; exact e3 h1 h2
      · rw [hstab _ _ (e4 h1 h2)]; exact e4 h1 h2
    · -- order_head
      exact ohead
    · -- stability
      exact hstab
    · -- guard post
      intro _
      rw [upd2_hit]
      exact hvne
    · -- measure
      unfold bfsMeasure unassignedCountB
      have hcard := unassignedCard_upd hnb1 hnb2 hun hvne
      simp only [List.length_append, List.length_singleton]
      omega
  · rw [if_neg hcond]
    refine ⟨hmid, fun _ _ _ => rfl, ?_, le_refl _⟩
    intro hc hdist
    exact hcond ⟨hc, hdist⟩

/-- Dequeuing the queue front `(x,z)`, updating `farthest` and appending to
the dequeue order yields the mid-iteration invariant. -/
lemma bfs_dequeue_mid {n sx sz : ℕ} {vert horiz : ℕ → ℕ → Bool} {s : BfsState}
    {x z : ℕ} {rest : List (ℕ × ℕ)}
    (hinv : BfsInv n sx sz vert horiz s) (hq : s.queue = (x, z) :: rest) :
    BfsMid n sx sz vert horiz x z
      { s with queue := rest
               farthest := if s.dist s.farthest.1 s.farthest.2 < s.dist x z then (x, z)
                 else s.farthest
               order := s.order ++ [(x, z)] } ∧
    x < n ∧ z < n ∧ s.dist x z ≠ -1 ∧ 0 ≤ s.dist x z := by
  have hhead : (x, z) ∈ s.queue := by rw [hq]; exact List.mem_cons_self _ _
  have hx : x < n := (hinv.q_bound (x, z) hhead).1
  have hz : z < n := (hinv.q_bound (x, z) hhead).2
  have hxza : s.dist x z ≠ -1 := hinv.q_assigned (x, z) hhead
  have hd0 : 0 ≤ s.dist x z := by
    rcases hinv.dist_vals x z with h | h
    · exact absurd h hxza
    · exact h
  have hnodup2 : (x, z) ∉ rest := by
    have := hinv.q_nodup
    rw [hq] at this
    exact (List.nodup_cons.mp this).1
  refine ⟨⟨⟨?_, ?_, ?_, ?_, ?_, ?_, ?_, ?_, ?_, ?_, ?_, ?_, ?_⟩, ?_, ?_⟩, hx, hz, hxza, hd0⟩ <;>
    (try dsimp only)
  · intro e he
    exact hinv.q_bound e (by rw [hq]; exact List.mem_cons_of_mem _ he)
  · intro e he
    exact hinv.q_assigned e (by rw [hq]; exact List.mem_cons_of_mem _ he)
  · have := hinv.q_nodup
    rw [hq] at this
    exact (List.nodup_cons.mp this).2
  · exact hinv.dist_vals
  · exact hinv.start_dist
  · split_ifs with hf
    · exact ⟨hx, hz⟩
    · exact hinv.far_bound
  · split_ifs with hf
    · exact hxza
    · exact hinv.far_assigned
  · intro a b ha hb hnotin
    by_cases habxz : a = x ∧ b = z
    · rw [habxz.1, habxz.2]
      split_ifs with hf
      · dsimp only
        omega
      · omega
    · have hnin : (a, b) ∉ s.queue := by
        rw [hq]
        intro hmem
        rcases List.mem_cons.mp hmem with heq | hmem2
        · exact habxz ⟨congrArg Prod.fst heq, congrArg Prod.snd heq⟩
        · exact hnotin hmem2
      have hold := hinv.far_max a b ha hb hnin
      split_ifs with hf
      · dsimp only
        omega
      · exact hold
  · rw [List.foldl_append]
    rw [← hinv.far_fold]
    simp only [List.foldl_cons, List.foldl_nil]
    unfold farStep
    rfl
  · intro e he
    rcases List.mem_append.mp he with he2 | he2
    · exact hinv.order_assigned e he2
    · rcases List.mem_singleton.mp he2 with rfl
      exact hxza
  · exact hinv.prev_chain
  · exact hinv.zero_start
  · intro a b ha hb hab
    exact hinv.dist_lt_count a b ha hb hab
  · intro a b ha hb hab hnotin hnexz
    have hnin : (a, b) ∉ s.queue := by
      rw [hq]
      intro hmem
      rcases List.mem_cons.mp hmem with heq | hmem2
      · exact hnexz ⟨congrArg Prod.fst heq, congrArg Prod.snd heq⟩
      · exact hnotin hmem2
    exact hinv.closure a b ha hb hab hnin
  · rcases hinv.order_start with ⟨ho, hq2, _⟩ | ho
    · rw [hq2] at hq
      injection hq with hq3 hq4
      rw [ho, ← hq3]
      rfl
    · rcases ho2 : s.order with _ | ⟨o0, orest⟩
      · rw [ho2] at ho
        exact absurd ho (by simp)
      · rw [ho2] at ho
        simpa using ho

/-- Once the four guard facts are available, the mid-invariant upgrades back
to the full invariant. -/
lemma bfs_mid_to_inv {n sx sz : ℕ} {vert horiz : ℕ → ℕ → Bool} {x z : ℕ} {s : BfsState}
    (hmid : BfsMid n sx sz vert horiz x z s)
    (g1 : 0 < x → vert x z = false → s.dist (x - 1) z ≠ -1)
    (g2 : x < n - 1 → vert (x + 1) z = false → s.dist (x + 1) z ≠ -1)
    (g3 : 0 < z → horiz x z = false → s.dist x (z - 1) ≠ -1)
    (g4 : z < n - 1 → horiz x (z + 1) = false → s.dist x (z + 1) ≠ -1) :
    BfsInv n sx sz vert horiz s := by
  obtain ⟨core, clx, ohead⟩ := hmid
  refine ⟨core, ?_, Or.inr ohead⟩
  intro a b ha hb hab hnotin
  by_cases habxz : a = x ∧ b = z
  · obtain ⟨rfl, rfl⟩ := habxz
    exact ⟨g1, fun h1 h2 => g2 (by omega) h2, g3, fun h1 h2 => g4 (by omega) h2⟩
  · exact clx a b ha hb hab hnotin habxz

/-- One BFS iteration preserves the invariant and decreases the measure. -/
lemma bfsStep_inv {n sx sz : ℕ} {vert horiz : ℕ → ℕ → Bool} {s : BfsState}
    (hinv : BfsInv n sx sz vert horiz s) (hne : s.queue ≠ []) :
    BfsInv n sx sz vert horiz (bfsStep n vert horiz s) ∧
      bfsMeasure n (bfsStep n vert horiz s) + 1 ≤ bfsMeasure n s := by
  rcases hq : s.queue with _ | ⟨⟨x, z⟩, rest⟩
  · exact absurd hq hne
  have hstep : bfsStep n vert horiz s = bfsStepGo n vert horiz s x z rest := by
    unfold bfsStep
    rw [hq]
  rw [hstep]
  simp only [bfsStepGo]
  obtain ⟨mid0, hx, hz, hxza, hd0⟩ := bfs_dequeue_mid hinv hq
  set s0 : BfsState := { s with
    queue := rest
    farthest := if s.dist s.farthest.1 s.farthest.2 < s.dist x z then (x, z) else s.farthest
    order := s.order ++ [(x, z)] } with hs0
  have hdeq0 : s0.dist x z = s.dist x z := rfl
  obtain ⟨mid1, stab1, post1, meas1⟩ :=
    relax_mid (0 < x ∧ vert x z = false) (x - 1, z) (s.dist x z) hx hz hdeq0 hd0
      (fun _ => ⟨by omega, hz⟩) mid0
  set s1 := relax (0 < x ∧ vert x z = false) x z (s.dist x z) (x - 1, z) s0 with hs1
  have hdeq1 : s1.dist x z = s.dist x z := stab1 x z hxza
  obtain ⟨mid2, stab2, post2, meas2⟩ :=
    relax_mid (x < n - 1 ∧ vert (x + 1) z = false) (x + 1, z) (s.dist x z) hx hz hdeq1 hd0
      (fun hc => ⟨by omega, hz⟩) mid1
  set s2 := relax (x < n - 1 ∧ vert (x + 1) z = false) x z (s.dist x z) (x + 1, z) s1 with hs2
  have hxza1 : s1.dist x z ≠ -1 := by rw [hdeq1]; exact hxza
  have hdeq2 : s2.dist x z = s.dist x z := by rw [stab2 x z hxza1, hdeq1]
  obtain ⟨mid3, stab3, post3, meas3⟩ :=
    relax_mid (0 < z ∧ horiz x z = false) (x, z - 1) (s.dist x z) hx hz hdeq2 hd0
      (fun _ => ⟨hx, by omega⟩) mid2
  set s3 := relax (0 < z ∧ horiz x z = false) x z (s.dist x z) (x, z - 1) s2 with hs3
  have hxza2 : s2.dist x z ≠ -1 := by rw [hdeq2]; exact hxza
  have hdeq3 : s3.dist x z = s.dist x z := by rw [stab3 x z hxza2, hdeq2]
  obtain ⟨mid4, stab4, post4, meas4⟩ :=
    relax_mid (z < n - 1 ∧ horiz x (z + 1) = false) (x, z + 1) (s.dist x z) hx hz hdeq3 hd0
      (fun hc => ⟨hx, by omega⟩) mid3
  set s4 := relax (z < n - 1 ∧ horiz x (z + 1) = false) x z (s.dist x z) (x, z + 1) s3 with hs4
  have hxza3 : s3.dist x z ≠ -1 := by rw [hdeq3]; exact hxza
  constructor
  · refine bfs_mid_to_inv mid4 ?_ ?_ ?_ ?_
    · intro h1 h2
      have ha1 := post1 ⟨h1, h2⟩
      have ha2 : s2.dist (x - 1) z = s1.dist (x - 1) z := stab2 _ _ ha1
      have ha3 : s3.dist (x - 1) z = s2.dist (x - 1) z := stab3 _ _ (by rw [ha2]; exact ha1)
      have ha4 : s4.dist (x - 1) z = s3.dist (x - 1) z :=
        stab4 _ _ (by rw [ha3, ha2]; exact ha1)
      rw [ha4, ha3, ha2]
      exact ha1
    · intro h1 h2
      have ha2 := post2 ⟨h1, h2⟩
      have ha3 : s3.dist (x + 1) z = s2.dist (x + 1) z := stab3 _ _ ha2
      have ha4 : s4.dist (x + 1) z = s3.dist (x + 1) z := stab4 _ _ (by rw [ha3]; exact ha2)
      rw [ha4, ha3]
      exact ha2
    · intro h1 h2
      have ha3 := post3 ⟨h1, h2⟩
      have ha4 : s4.dist x (z - 1) = s3.dist x (z - 1) := stab4 _ _ ha3
      rw [ha4]
      exact ha3
    · intro h1 h2
      exact post4 ⟨h1, h2⟩
  · have hms0 : bfsMeasure n s0 + 1 = bfsMeasure n s := by
      unfold bfsMeasure unassignedCountB
      rw [hq]
      dsimp only [hs0]
      simp only [List.length_cons]
      omega
    omega

/-- The initial BFS state satisfies the invariant. -/
lemma bfsInit_inv {n sx sz : ℕ} (vert horiz : ℕ → ℕ → Bool)
    (hsx : sx < n) (hsz : sz < n) :
    BfsInv n sx sz vert horiz (bfsInit sx sz) := by
  simp only [bfsInit]
  have hvis : ∀ a b : ℕ,
      upd2 (fun _ _ => (-1 : Int)) sx sz 0 a b ≠ -1 ↔ (a = sx ∧ b = sz) := by
    intro a b
    unfold upd2
    split_ifs with h <;> simp [h]
  have hcnt : ((gridCells n).filter
      (fun c => upd2 (fun _ _ => (-1 : Int)) sx sz 0 c.1 c.2 ≠ -1)).card = 1 := by
    have h1 : (gridCells n).filter
        (fun c => upd2 (fun _ _ => (-1 : Int)) sx sz 0 c.1 c.2 ≠ -1) = {(sx, sz)} := by
      ext ⟨c1, c2⟩
      simp only [Finset.mem_filter, Finset.mem_singleton, hvis, Prod.mk.injEq]
      constructor
      · rintro ⟨_, h⟩; exact h
      · rintro ⟨rfl, rfl⟩
        exact ⟨gridCells_mem.mpr ⟨hsx, hsz⟩, rfl, rfl⟩
    rw [h1]
    rfl
  refine ⟨⟨?_, ?_, ?_, ?_, ?_, ?_, ?_, ?_, ?_, ?_, ?_, ?_, ?_⟩, ?_, ?_⟩ <;> (try dsimp only)
  · rintro c hc
    rcases List.mem_singleton.mp hc with rfl
    exact ⟨hsx, hsz⟩
  · rintro c hc
    rcases List.mem_singleton.mp hc with rfl
    exact (hvis sx sz).mpr ⟨rfl, rfl⟩
  · exact List.nodup_singleton _
  · intro a b
    by_cases hab : a = sx ∧ b = sz
    · rw [hab.1, hab.2, upd2_hit]
      right
      omega
    · rw [upd2_miss _ _ hab]
      left
      rfl
  · exact upd2_hit _ _ _ _
  · exact ⟨hsx, hsz⟩
  · exact (hvis sx sz).mpr ⟨rfl, rfl⟩
  · intro a b ha hb hnotin
    by_cases hab : a = sx ∧ b = sz
    · rw [hab.1, hab.2]
    · rw [upd2_miss _ _ hab, upd2_hit]
      decide
  · rfl
  · intro c hc
    exact absurd hc (List.not_mem_nil c)
  · intro a b ha hb hab hne2
    exact absurd ((hvis a b).mp hab) hne2
  · intro a b ha hb h0
    by_cases hab : a = sx ∧ b = sz
    · exact hab
    · rw [upd2_miss _ _ hab] at h0
      exact absurd h0 (by decide)
  · intro a b ha hb hab
    obtain ⟨rfl, rfl⟩ := (hvis a b).mp hab
    unfold assignedCount
    rw [hcnt, upd2_hit]
    decide
  · intro a b ha hb hab hnotin
    obtain ⟨rfl, rfl⟩ := (hvis a b).mp hab
    exact absurd (List.mem_singleton.mpr rfl) hnotin
  · exact Or.inl ⟨rfl, rfl, rfl⟩

/-- Running the BFS loop for at least the measure's worth of fuel keeps the
invariant and empties the queue. -/
lemma bfsLoop_full {n sx sz : ℕ} {vert horiz : ℕ → ℕ → Bool} :
    ∀ (fuel : ℕ) (s : BfsState), BfsInv n sx sz vert horiz s →
      bfsMeasure n s ≤ fuel →
      BfsInv n sx sz vert horiz (bfsLoop n vert horiz fuel s) ∧
        (bfsLoop n vert horiz fuel s).queue = [] := by
  intro fuel
  induction fuel with
  | zero =>
    intro s hinv hm
    refine ⟨hinv, ?_⟩
    have hlen : s.queue.length = 0 := by
      unfold bfsMeasure at hm
      omega
    exact List.length_eq_zero.mp hlen
  | succ fuel ih =>
    intro s hinv hm
    simp only [bfsLoop]
    by_cases hse : s.queue = []
    · rw [if_pos hse]
      exact ⟨hinv, hse⟩
    · rw [if_neg hse]
      obtain ⟨hinv2, hm2⟩ := bfsStep_inv hinv hse
      exact ih _ hinv2 (by omega)

/-- The completed BFS run satisfies the invariant with an empty queue. -/
lemma bfsRun_inv {n sx sz : ℕ} (vert horiz : ℕ → ℕ → Bool)
    (hsx : sx < n) (hsz : sz < n) :
    BfsInv n sx sz vert horiz (bfsRun n vert horiz sx sz) ∧
      (bfsRun n vert horiz sx sz).queue = [] := by
  refine bfsLoop_full (2 * n * n) _ (bfsInit_inv vert horiz hsx hsz) ?_
  unfold bfsMeasure unassignedCountB bfsInit
  dsimp only
  have hle : ((gridCells n).filter
      (fun c => upd2 (fun _ _ => (-1 : Int)) sx sz 0 c.1 c.2 = -1)).card
        ≤ (gridCells n).card := Finset.card_filter_le _ _
  have hg : (gridCells n).card = n * n := by
    unfold gridCells
    rw [Finset.card_product, Finset.card_range]
  have hsub : ((gridCells n).filter
      (fun c => upd2 (fun _ _ => (-1 : Int)) sx sz 0 c.1 c.2 = -1)).card < n * n := by
    rw [← hg]
    refine Finset.card_lt_card ?_
    refine Finset.filter_ssubset.mpr ?_
    refine ⟨(sx, sz), gridCells_mem.mpr ⟨hsx, hsz⟩, ?_⟩
    rw [upd2_hit]
    decide
  simp only [List.length_singleton]
  have h2 : 2 * n * n = 2 * (n * n) := by ring
  omega

lemma farStep_self (d : ℕ → ℕ → Int) (b : ℕ × ℕ) : farStep d b b = b := by
  unfold farStep
  rw [if_neg (lt_irrefl _)]

/-- After the BFS run over the carved maze, every in-grid cell has an
assigned distance: the assigned set contains the start, is closed under the
cleared-wall adjacency once the queue is empty, and the carve made every
cell reachable from the start. -/
lemma bfs_all_assigned {n : ℕ} (hn : 0 < n) (rng : ℕ → ℕ) :
    ∀ x z, x < n → z < n →
      (bfsRun n (carve n rng).vert (carve n rng).horiz (rng 0 % n) (rng 1 % n)).dist x z
        ≠ -1 := by
  obtain ⟨cinv, cstk⟩ := carve_inv hn rng
  obtain ⟨binv, bq⟩ := bfsRun_inv (carve n rng).vert (carve n rng).horiz
    (Nat.mod_lt (rng 0) hn) (Nat.mod_lt (rng 1) hn)
  have hclosed : ∀ a b : Fin n × Fin n,
      (mazeGraph n (carve n rng).vert (carve n rng).horiz).Adj a b →
      (bfsRun n (carve n rng).vert (carve n rng).horiz (rng 0 % n) (rng 1 % n)).dist
        a.1.1 a.2.1 ≠ -1 →
      (bfsRun n (carve n rng).vert (carve n rng).horiz (rng 0 % n) (rng 1 % n)).dist
        b.1.1 b.2.1 ≠ -1 := by
    intro a b hadj hassn
    obtain ⟨e1, e2, e3, e4⟩ := binv.closure a.1.1 a.2.1 a.1.isLt a.2.isLt hassn
      (by rw [bq]; exact List.not_mem_nil _)
    rcases hadj with ⟨h1, h2, h3⟩ | ⟨h1, h2, h3⟩ | ⟨h1, h2, h3⟩ | ⟨h1, h2, h3⟩ <;>
      dsimp only at h1 h2 h3
    · rw [h2, ← h1]
      refine e2 ?_ ?_
      · have := b.1.isLt
        omega
      · rw [← h2]
        exact h3
    · rw [show b.1.1 = a.1.1 - 1 by omega, ← h1]
      exact e1 (by omega) h3
    · rw [h2, ← h1]
      refine e4 ?_ ?_
      · have := b.2.isLt
        omega
      · rw [← h2]
        exact h3
    · rw [show b.2.1 = a.2.1 - 1 by omega, ← h1]
      exact e3 (by omega) h3
  intro x z hxlt hzlt
  have hreach := cinv.reach x z hxlt hzlt (carve_all_visited hn rng x z hxlt hzlt)
  obtain ⟨w⟩ := hreach
  have hwalk : ∀ (a b : Fin n × Fin n)
      (_ : (mazeGraph n (carve n rng).vert (carve n rng).horiz).Walk a b),
      (bfsRun n (carve n rng).vert (carve n rng).horiz (rng 0 % n) (rng 1 % n)).dist
        a.1.1 a.2.1 ≠ -1 →
      (bfsRun n (carve n rng).vert (carve n rng).horiz (rng 0 % n) (rng 1 % n)).dist
        b.1.1 b.2.1 ≠ -1 := by
    intro a b w2
    induction w2 with
    | nil => exact id
    | cons hadj p ih => exact fun ha => ih (hclosed _ _ hadj ha)
  refine hwalk _ _ w ?_
  rw [binv.start_dist]
  decide

/-! ### Claim theorems -/

/-- C1: for every `cellsPerSide` `n ≥ 2` and every sequence of random
draws, after `generateMaze` returns every cell of the `n × n` grid has been
marked visited by the depth-first carve exactly once, exactly `n² - 1`
walls have been cleared, and the graph whose vertices are the cells and
whose edges are the cleared walls is connected and acyclic (a spanning
tree). -/
theorem generateMaze_spanning_tree (n : ℕ) (hn : 2 ≤ n) (rng : ℕ → ℕ) :
    (∀ x z, x < n → z < n → (generateMaze n rng).marks x z = 1) ∧
    clearedCount n (generateMaze n rng).vert (generateMaze n rng).horiz = n ^ 2 - 1 ∧
    (mazeGraph n (generateMaze n rng).vert (generateMaze n rng).horiz).Connected ∧
    (mazeGraph n (generateMaze n rng).vert (generateMaze n rng).horiz).IsAcyclic := by
  have hn0 : 0 < n := by omega
  obtain ⟨inv, hstk⟩ := carve_inv hn0 rng
  have hvert : (generateMaze n rng).vert = (carve n rng).vert := rfl
  have hhoriz : (generateMaze n rng).horiz = (carve n rng).horiz := rfl
  have hmarks : (generateMaze n rng).marks = (carve n rng).marks := rfl
  refine ⟨?_, ?_, ?_, ?_⟩
  · intro x z hx hz
    rw [hmarks, inv.marks_eq x z, if_pos (carve_all_visited hn0 rng x z hx hz)]
  · have hcw := inv.count_walls
    rw [carve_visitedCount hn0 rng] at hcw
    rw [hvert, hhoriz]
    have hsq : n ^ 2 = n * n := by ring
    omega
  · rw [hvert, hhoriz]
    have hnon : Nonempty (Fin n × Fin n) := ⟨(⟨0, hn0⟩, ⟨0, hn0⟩)⟩
    refine SimpleGraph.Connected.mk (fun a b => ?_)
    have hra := inv.reach a.1.1 a.2.1 a.1.isLt a.2.isLt
      (carve_all_visited hn0 rng a.1.1 a.2.1 a.1.isLt a.2.isLt)
    have hrb := inv.reach b.1.1 b.2.1 b.1.isLt b.2.isLt
      (carve_all_visited hn0 rng b.1.1 b.2.1 b.1.isLt b.2.isLt)
    exact hra.symm.trans hrb
  · rw [hvert, hhoriz]
    exact inv.acyclic

/-- Witness for C1 at `n = 2` with the constant-zero random stream. -/
theorem generateMaze_spanning_tree_witness :
    2 ≤ 2 ∧
    ((∀ x z, x < 2 → z < 2 → (generateMaze 2 (fun _ => 0)).marks x z = 1) ∧
      clearedCount 2 (generateMaze 2 (fun _ => 0)).vert (generateMaze 2 (fun _ => 0)).horiz
        = 2 ^ 2 - 1 ∧
      (mazeGraph 2 (generateMaze 2 (fun _ => 0)).vert (generateMaze 2 (fun _ => 0)).horiz).Connected ∧
      (mazeGraph 2 (generateMaze 2 (fun _ => 0)).vert (generateMaze 2 (fun _ => 0)).horiz).IsAcyclic) :=
  ⟨by norm_num, generateMaze_spanning_tree 2 (by norm_num) (fun _ => 0)⟩

/-- C10: the carve never clears a perimeter wall: for every `n ≥ 2` and
every random stream, after generation `vertWalls[0][iz]` and
`vertWalls[n][iz]` hold for every row `iz`, and `horizWalls[ix][0]` and
`horizWalls[ix][n]` hold for every column `ix`. -/
theorem generateMaze_perimeter_intact (n : ℕ) (hn : 2 ≤ n) (rng : ℕ → ℕ) :
    (∀ iz, iz < n →
      (generateMaze n rng).vert 0 iz = true ∧ (generateMaze n rng).vert n iz = true) ∧
    (∀ ix, ix < n →
      (generateMaze n rng).horiz ix 0 = true ∧ (generateMaze n rng).horiz ix n = true) := by
  have hn0 : 0 < n := by omega
  obtain ⟨inv, hstk⟩ := carve_inv hn0 rng
  constructor
  · intro iz _
    exact ⟨inv.vert_perim 0 iz (Or.inl rfl), inv.vert_perim n iz (Or.inr (Or.inl le_rfl))⟩
  · intro ix _
    exact ⟨inv.horiz_perim ix 0 (Or.inl rfl), inv.horiz_perim ix n (Or.inr (Or.inr le_rfl))⟩

/-- C5: for every generated maze, the goal cell's grid coordinates are the
recorded `farthest` cell; every cell gets an assigned (finite) BFS
distance; `farthest` attains the maximum of the BFS distances over all
cells; and ties are broken first-wins: `farthest` is the first cell in
dequeue order whose distance equals the maximum, so a later cell of equal
distance never replaces it. -/
theorem generateMaze_goal_is_first_farthest (n : ℕ) (hn : 2 ≤ n) (rng : ℕ → ℕ) :
    (∀ x z, x < n → z < n → (generateMaze n rng).dist x z ≠ -1) ∧
    (∀ x z, x < n → z < n →
      (generateMaze n rng).dist x z ≤
        (generateMaze n rng).dist (generateMaze n rng).farthest.1
          (generateMaze n rng).farthest.2) ∧
    ((generateMaze n rng).order.find?
        (fun c => (generateMaze n rng).dist c.1 c.2 ==
          (generateMaze n rng).dist (generateMaze n rng).farthest.1
            (generateMaze n rng).farthest.2)
      = some (generateMaze n rng).farthest) ∧
    (generateMaze n rng).dist (generateMaze n rng).farthest.1
      (generateMaze n rng).farthest.2 ≠ -1 ∧
    (generateMaze n rng).goalCell.ix = (generateMaze n rng).farthest.1 ∧
    (generateMaze n rng).goalCell.iz = (generateMaze n rng).farthest.2 := by
  have hn0 : 0 < n := by omega
  obtain ⟨binv, bq⟩ := bfsRun_inv (carve n rng).vert (carve n rng).horiz
    (Nat.mod_lt (rng 0) hn0) (Nat.mod_lt (rng 1) hn0)
  have hdist : (generateMaze n rng).dist
      = (bfsRun n (carve n rng).vert (carve n rng).horiz (rng 0 % n) (rng 1 % n)).dist := rfl
  have hord : (generateMaze n rng).order
      = (bfsRun n (carve n rng).vert (carve n rng).horiz (rng 0 % n) (rng 1 % n)).order := rfl
  have hfar : (generateMaze n rng).farthest
      = (bfsRun n (carve n rng).vert (carve n rng).horiz (rng 0 % n) (rng 1 % n)).farthest := rfl
  simp only [hdist, hord, hfar]
  refine ⟨?_, ?_, ?_, ?_, rfl, rfl⟩
  · exact fun x z hx hz => bfs_all_assigned hn0 rng x z hx hz
  · intro x z hx hz
    exact binv.far_max x z hx hz (by rw [bq]; exact List.not_mem_nil _)
  · rcases binv.order_start with ⟨_, hq2, _⟩ | ho
    · rw [bq] at hq2
      exact absurd hq2 (by simp)
    · rcases horder : (bfsRun n (carve n rng).vert (carve n rng).horiz
          (rng 0 % n) (rng 1 % n)).order with _ | ⟨o0, orest⟩
      · rw [horder] at ho
        exact absurd ho (by simp)
      · rw [horder] at ho
        have ho0 : o0 = (rng 0 % n, rng 1 % n) := by simpa using ho
        subst ho0
        have hff := binv.far_fold
        rw [horder, List.foldl_cons, farStep_self] at hff
        obtain ⟨_, _, f3⟩ := foldl_farStep_first_max
          (bfsRun n (carve n rng).vert (carve n rng).horiz (rng 0 % n) (rng 1 % n)).dist
          orest (rng 0 % n, rng 1 % n)
        rw [← hff] at f3
        exact f3
  · exact binv.far_assigned

/-- Witness for C5 at `n = 2` with the constant-zero random stream. -/
theorem generateMaze_goal_is_first_farthest_witness :
    2 ≤ 2 ∧
    ((∀ x z, x < 2 → z < 2 → (generateMaze 2 (fun _ => 0)).dist x z ≠ -1) ∧
    (∀ x z, x < 2 → z < 2 →
      (generateMaze 2 (fun _ => 0)).dist x z ≤
        (generateMaze 2 (fun _ => 0)).dist (generateMaze 2 (fun _ => 0)).farthest.1
          (generateMaze 2 (fun _ => 0)).farthest.2) ∧
    ((generateMaze 2 (fun _ => 0)).order.find?
        (fun c => (generateMaze 2 (fun _ => 0)).dist c.1 c.2 ==
          (generateMaze 2 (fun _ => 0)).dist (generateMaze 2 (fun _ => 0)).farthest.1
            (generateMaze 2 (fun _ => 0)).farthest.2)
      = some (generateMaze 2 (fun _ => 0)).farthest) ∧
    (generateMaze 2 (fun _ => 0)).dist (generateMaze 2 (fun _ => 0)).farthest.1
      (generateMaze 2 (fun _ => 0)).farthest.2 ≠ -1 ∧
    (generateMaze 2 (fun _ => 0)).goalCell.ix = (generateMaze 2 (fun _ => 0)).farthest.1 ∧
    (generateMaze 2 (fun _ => 0)).goalCell.iz = (generateMaze 2 (fun _ => 0)).farthest.2) :=
  ⟨by norm_num, generateMaze_goal_is_first_farthest 2 (by norm_num) (fun _ => 0)⟩

/-- The path-reconstruction loop gives the same result for any fuel above
the distance of its starting cell: the `prev` chain strictly decreases the
BFS distance, so it reaches the start cell (the unique distance-0 cell)
without exhausting the fuel.  This justifies the fuel `n * n + 1` used in
`generateMaze`. -/
lemma pathLoop_fuel_irrelevant {n sx sz : ℕ} {vert horiz : ℕ → ℕ → Bool} {B : BfsState}
    (binv : BfsInv n sx sz vert horiz B) :
    ∀ (k : ℕ) (c : ℕ × ℕ), c.1 < n → c.2 < n → B.dist c.1 c.2 = (k : Int) →
      ∀ (acc : List (ℕ × ℕ)) (f1 f2 : ℕ), k < f1 → k < f2 →
        pathLoop B.prev sx sz f1 c acc = pathLoop B.prev sx sz f2 c acc := by
  intro k
  induction k using Nat.strong_induction_on with
  | _ k ih =>
    intro c hc1 hc2 hck acc f1 f2 hf1 hf2
    rcases f1 with _ | f1
    · omega
    rcases f2 with _ | f2
    · omega
    simp only [pathLoop]
    by_cases hstart : c.1 = sx ∧ c.2 = sz
    · rw [if_pos hstart, if_pos hstart]
    · rw [if_neg hstart, if_neg hstart]
      have hkpos : k ≠ 0 := by
        intro h0
        apply hstart
        refine binv.zero_start c.1 c.2 hc1 hc2 ?_
        rw [hck, h0]
        rfl
      have hassigned : B.dist c.1 c.2 ≠ -1 := by
        rw [hck]
        omega
      obtain ⟨p, hp1, hp2, hp3, hp4⟩ := binv.prev_chain c.1 c.2 hc1 hc2 hassigned hstart
      rw [hp1]
      have hpk : B.dist p.1 p.2 = ((k - 1 : ℕ) : Int) := by
        rw [hp4, hck]
        omega
      exact ih (k - 1) (by omega) p hp2 hp3 hpk (acc ++ [c]) f1 f2 (by omega) (by omega)

/-- Model-fidelity: the reconstructed path of `generateMaze` is unchanged
if the fuel `n * n + 1` is replaced by any larger bound, so the fuelled
model computes the real fixpoint of the source's `while` loop. -/
lemma generateMaze_path_fuel (n : ℕ) (hn : 2 ≤ n) (rng : ℕ → ℕ) (f : ℕ)
    (hf : n * n + 1 ≤ f) :
    buildPath (generateMaze n rng).prev (rng 0 % n) (rng 1 % n)
        (generateMaze n rng).farthest (n * n + 1)
      = buildPath (generateMaze n rng).prev (rng 0 % n) (rng 1 % n)
          (generateMaze n rng).farthest f := by
  have hn0 : 0 < n := by omega
  obtain ⟨binv, bq⟩ := bfsRun_inv (carve n rng).vert (carve n rng).horiz
    (Nat.mod_lt (rng 0) hn0) (Nat.mod_lt (rng 1) hn0)
  have hprev : (generateMaze n rng).prev
      = (bfsRun n (carve n rng).vert (carve n rng).horiz (rng 0 % n) (rng 1 % n)).prev := rfl
  have hfar : (generateMaze n rng).farthest
      = (bfsRun n (carve n rng).vert (carve n rng).horiz (rng 0 % n) (rng 1 % n)).farthest := rfl
  rw [hprev, hfar]
  have hfb := binv.far_bound
  have hfa := binv.far_assigned
  have hfd : 0 ≤ (bfsRun n (carve n rng).vert (carve n rng).horiz
      (rng 0 % n) (rng 1 % n)).dist
        (bfsRun n (carve n rng).vert (carve n rng).horiz (rng 0 % n) (rng 1 % n)).farthest.1
        (bfsRun n (carve n rng).vert (carve n rng).horiz (rng 0 % n) (rng 1 % n)).farthest.2 := by
    rcases binv.dist_vals
      (bfsRun n (carve n rng).vert (carve n rng).horiz (rng 0 % n) (rng 1 % n)).farthest.1
      (bfsRun n (carve n rng).vert (carve n rng).horiz (rng 0 % n) (rng 1 % n)).farthest.2
      with h | h
    · exact absurd h hfa
    · exact h
  have hlt := binv.dist_lt_count
    (bfsRun n (carve n rng).vert (carve n rng).horiz (rng 0 % n) (rng 1 % n)).farthest.1
    (bfsRun n (carve n rng).vert (carve n rng).horiz (rng 0 % n) (rng 1 % n)).farthest.2
    hfb.1 hfb.2 hfa
  have hcnt : assignedCount n
      (bfsRun n (carve n rng).vert (carve n rng).horiz (rng 0 % n) (rng 1 % n)) ≤ n * n := by
    unfold assignedCount
    calc ((gridCells n).filter _).card ≤ (gridCells n).card := Finset.card_filter_le _ _
    _ = n * n := by unfold gridCells; rw [Finset.card_product, Finset.card_range]
  set k := ((bfsRun n (carve n rng).vert (carve n rng).horiz (rng 0 % n) (rng 1 % n)).dist
    (bfsRun n (carve n rng).vert (carve n rng).horiz (rng 0 % n) (rng 1 % n)).farthest.1
    (bfsRun n (carve n rng).vert (carve n rng).horiz (rng 0 % n) (rng 1 % n)).farthest.2).toNat
    with hk
  have hkd : (bfsRun n (carve n rng).vert (carve n rng).horiz (rng 0 % n) (rng 1 % n)).dist
      (bfsRun n (carve n rng).vert (carve n rng).horiz (rng 0 % n) (rng 1 % n)).farthest.1
      (bfsRun n (carve n rng).vert (carve n rng).horiz (rng 0 % n) (rng 1 % n)).farthest.2
      = (k : Int) := by
    rw [hk]
    omega
  have hkn : k < n * n + 1 := by omega
  unfold buildPath
  rw [pathLoop_fuel_irrelevant binv k _ hfb.1 hfb.2 hkd [] (n * n + 1) f hkn (by omega)]

/-- C6: for every generated maze, if the reconstructed start-to-goal path
has at least 3 cells then `dropCell` is the path cell at index
`⌊length/2⌋` (hence lies on the path) and the goal is placed on the lower
level 0; otherwise `dropCell` is unset and the goal stays on the play
level.  The start cell is always on the play level at the carve's start
coordinates. -/
theorem generateMaze_drop_midpoint (n : ℕ) (rng : ℕ → ℕ) :
    (3 ≤ (generateMaze n rng).path.length →
      (generateMaze n rng).dropCell
          = some ((generateMaze n rng).path.getD ((generateMaze n rng).path.length / 2) (0, 0)) ∧
      (generateMaze n rng).path.getD ((generateMaze n rng).path.length / 2) (0, 0)
          ∈ (generateMaze n rng).path ∧
      (generateMaze n rng).goalCell.levelIndex = 0) ∧
    ((generateMaze n rng).path.length < 3 →
      (generateMaze n rng).dropCell = none ∧
      (generateMaze n rng).goalCell.levelIndex = playLevelIndex) ∧
    (generateMaze n rng).startCell
      = ⟨(generateMaze n rng).startX, (generateMaze n rng).startZ, playLevelIndex⟩ := by
  have hdc : (generateMaze n rng).dropCell
      = (if 3 ≤ (generateMaze n rng).path.length
          then some ((generateMaze n rng).path.getD ((generateMaze n rng).path.length / 2) (0, 0))
          else none) := rfl
  have hgl : (generateMaze n rng).goalCell.levelIndex
      = (match (generateMaze n rng).dropCell with
          | some _ => 0
          | none => playLevelIndex) := rfl
  refine ⟨?_, ?_, rfl⟩
  · intro hlen
    have hidx : (generateMaze n rng).path.length / 2 < (generateMaze n rng).path.length := by
      omega
    refine ⟨by rw [hdc, if_pos hlen], ?_, ?_⟩
    · rw [List.getD_eq_getElem _ _ hidx]
      exact List.getElem_mem _
    · rw [hgl, hdc, if_pos hlen]
  · intro hlen
    refine ⟨by rw [hdc, if_neg (by omega)], ?_⟩
    rw [hgl, hdc, if_neg (by omega)]

/-- Witness for C10 at `n = 2` with the constant-zero random stream. -/
theorem generateMaze_perimeter_intact_witness :
    2 ≤ 2 ∧
    ((∀ iz, iz < 2 →
      (generateMaze 2 (fun _ => 0)).vert 0 iz = true ∧ (generateMaze 2 (fun _ => 0)).vert 2 iz = true) ∧
    (∀ ix, ix < 2 →
      (generateMaze 2 (fun _ => 0)).horiz ix 0 = true ∧ (generateMaze 2 (fun _ => 0)).horiz ix 2 = true)) :=
  ⟨by norm_num, generateMaze_perimeter_intact 2 (by norm_num) (fun _ => 0)⟩

/-- C7: the win detector fires exactly when the two-axis `(x,z)` squared
distance between ball and goal centres is strictly below
`(0.45 * cellSize)^2` and the ball's `y` lies within
`[goalY, goalY + floorThickness + 1.5 * ballRadius]`. -/
theorem winHit_iff (goal : Vec3) (cellSize : ℝ) (p : Vec3) :
    winHit goal cellSize p ↔
      ((p.x - goal.x) ^ 2 + (p.z - goal.z) ^ 2 < (0.45 * cellSize) ^ 2 ∧
       goal.y ≤ p.y ∧ p.y ≤ goal.y + floorThickness + 1.5 * ballRadius) := by
  have e1 : (p.x - goal.x) * (p.x - goal.x) + (p.z - goal.z) * (p.z - goal.z)
      = (p.x - goal.x) ^ 2 + (p.z - goal.z) ^ 2 := by ring
  have e2 : ((cellSize * 0.45 : ℝ)) ^ 2 = (0.45 * cellSize) ^ 2 := by ring
  have e3 : (ballRadius * 1.5 : ℝ) = 1.5 * ballRadius := by ring
  unfold winHit
  rw [e1, e2, e3, ge_iff_le]
  tauto

/-- C8: `hasWon` is monotone false-to-true under integration ticks — no
sequence of `integrateBall` calls ever clears it — and it is cleared
(set to `false`) by the explicit resets `resetLevel` and `restartGame`. -/
theorem hasWon_monotone (l : List TickInput) (s : BallState) (p : Vec3) :
    s.hasWon ≤ (runTicks l s).hasWon ∧
    (resetLevelState p).hasWon = false ∧ (restartGameState p).hasWon = false := by
  refine ⟨?_, rfl, rfl⟩
  induction l generalizing s with
  | nil => exact le_refl _
  | cons i t ih =>
    have hstep : s.hasWon ≤ (tick i.walls i.gravity i.goal i.cellSize i.dt s).hasWon := by
      unfold tick
      dsimp only
      split_ifs with h
      · exact Bool.le_true _
      · exact le_refl _
    have hrt : runTicks (i :: t) s
        = runTicks t (tick i.walls i.gravity i.goal i.cellSize i.dt s) := rfl
    rw [hrt]
    exact le_trans hstep (ih _)

/-- C9 counterexample: at frame delta `0` the clamped `dt` is `0` and
`ceil(dt / maxStep) = 0`, yet the integrator performs `max(1, 0) = 1`
sub-step, so the claimed step count `ceil(dt / maxStep)` is wrong for
non-positive frame deltas. -/
theorem steps_formula_counterexample :
    frameDt 0 = 0 ∧ numSteps (frameDt 0) = 1 ∧ ⌈frameDt 0 / maxStep⌉ = 0 := by
  have h0 : frameDt 0 = 0 := by
    unfold frameDt
    norm_num
  refine ⟨h0, ?_, ?_⟩
  · unfold numSteps
    rw [h0]
    norm_num
  · rw [h0]
    norm_num

/-- C9 (amended): the integrator receives `dt` clamped to at most `1/30`
seconds; the sub-step count is `max(1, ceil(dt / maxStep))` with
`maxStep = 1/120` — equal to `ceil(dt / maxStep)` whenever the clamped
`dt` is positive — and `dt` is divided evenly among the sub-steps. -/
theorem frame_clamp_and_steps (delta : ℝ) (hpos : 0 < frameDt delta) :
    frameDt delta ≤ 1 / 30 ∧
    (numSteps (frameDt delta) : ℤ) = max 1 ⌈frameDt delta / maxStep⌉ ∧
    (numSteps (frameDt delta) : ℤ) = ⌈frameDt delta / maxStep⌉ ∧
    (numSteps (frameDt delta) : ℝ) * (frameDt delta / (numSteps (frameDt delta) : ℝ))
      = frameDt delta := by
  have hc : 0 < ⌈frameDt delta / maxStep⌉ := by
    refine Int.ceil_pos.mpr ?_
    refine div_pos hpos ?_
    unfold maxStep
    norm_num
  have hmax : max 1 ⌈frameDt delta / maxStep⌉ = ⌈frameDt delta / maxStep⌉ :=
    max_eq_right (by omega)
  have hns : (numSteps (frameDt delta) : ℤ) = ⌈frameDt delta / maxStep⌉ := by
    unfold numSteps
    rw [hmax, Int.toNat_of_nonneg (by omega)]
  have hns1 : 1 ≤ numSteps (frameDt delta) := by
    unfold numSteps
    omega
  refine ⟨?_, ?_, hns, ?_⟩
  · exact min_le_right _ _
  · rw [hns, hmax]
  · have hk : ((numSteps (frameDt delta) : ℝ)) ≠ 0 :=
      Nat.cast_ne_zero.mpr (by omega)
    rw [mul_comm]
    exact div_mul_cancel₀ _ hk

/-- Witness for the amended C9 claim at frame delta `1000/60` ms:
the clamped `dt` is `1/60`, which is positive, and the theorem applies. -/
theorem frame_clamp_and_steps_witness :
    0 < frameDt (1000 / 60) ∧
    (frameDt (1000 / 60) ≤ 1 / 30 ∧
     (numSteps (frameDt (1000 / 60)) : ℤ) = max 1 ⌈frameDt (1000 / 60) / maxStep⌉ ∧
     (numSteps (frameDt (1000 / 60)) : ℤ) = ⌈frameDt (1000 / 60) / maxStep⌉ ∧
     (numSteps (frameDt (1000 / 60)) : ℝ)
        * (frameDt (1000 / 60) / (numSteps (frameDt (1000 / 60)) : ℝ))
       = frameDt (1000 / 60)) :=
  have hp : 0 < frameDt (1000 / 60) := by
    unfold frameDt
    rw [lt_min_iff]
    norm_num
  ⟨hp, frame_clamp_and_steps (1000 / 60) hp⟩

lemma signOr1_sq (l : ℝ) : signOr1 l ^ 2 = 1 := by
  unfold signOr1
  split_ifs <;> norm_num

/-- C4 counterexample: with the sphere centre at the centre of a large box
(half extents 2) and radius `0.45`, the centre-to-closest-point distance
is `0 < radius`, yet `sphereVsAabb` returns `null`: the degenerate branch
compares the radius with the distance to the nearest face, not with the
centre-to-closest distance, so "null exactly when distance >= radius"
fails. -/
theorem sphereVsAabb_claim_counterexample :
    sphereVsAabb ⟨0, 0, 0⟩ (45 / 100) ⟨⟨0, 0, 0⟩, ⟨2, 2, 2⟩⟩ = none ∧
    sphereBoxDistSq ⟨0, 0, 0⟩ ⟨⟨0, 0, 0⟩, ⟨2, 2, 2⟩⟩ = 0 ∧
    ((0 : ℝ) < 45 / 100) := by
  refine ⟨?_, ?_, by norm_num⟩
  · unfold sphereVsAabb
    norm_num [min_def, max_def]
  · unfold sphereBoxDistSq
    norm_num [min_def, max_def]

/-- C4 (amended): for every positive radius, `sphereVsAabb` returns `null`
exactly when the separation measure `sphereSep` — the centre-to-closest
distance when the centre lies strictly outside the clamped closest point,
and the smallest distance to a face in the degenerate case — is at least
the radius; otherwise the contact has `penetration = radius - sphereSep`
and an exactly unit-length normal, so the degenerate branch never lets a
zero-distance normalization reach the state. -/
theorem sphereVsAabb_separation (p : Vec3) (r : ℝ) (w : Wall) (hr : 0 < r) :
    (sphereVsAabb p r w = none ↔ r ≤ sphereSep p w) ∧
    (∀ c : Contact, sphereVsAabb p r w = some c →
      c.penetration = r - sphereSep p w ∧
      c.normal.x ^ 2 + c.normal.y ^ 2 + c.normal.z ^ 2 = 1) := by
  obtain ⟨px, py, pz⟩ := p
  obtain ⟨⟨wx, wy, wz⟩, ux, uy, uz⟩ := w
  unfold sphereVsAabb sphereSep sphereBoxDistSq minFaceDist
  dsimp only
  set dx := max (-ux) (min (px - wx) ux) with hdx
  set dy := max (-uy) (min (py - wy) uy) with hdy
  set dz := max (-uz) (min (pz - wz) uz) with hdz
  set nx := px - (wx + dx) with hnx
  set ny := py - (wy + dy) with hny
  set nz := pz - (wz + dz) with hnz
  set D := nx * nx + ny * ny + nz * nz with hD
  set fx := ux - |px - wx| with hfx
  set fy := uy - |py - wy| with hfy
  set fz := uz - |pz - wz| with hfz
  by_cases hD0 : D = 0
  · rw [if_pos hD0, if_pos hD0]
    have hsel : (if fz < (if fy < fx then fy else fx) then fz
        else (if fy < fx then fy else fx)) = min (min fx fy) fz := by
      rw [min_def, min_def]
      split_ifs <;> linarith
    rw [hsel]
    by_cases hrs : r ≤ min (min fx fy) fz
    · rw [if_pos hrs]
      exact ⟨Iff.intro (fun _ => hrs) (fun _ => rfl), fun c hc => nomatch hc⟩
    · rw [if_neg hrs]
      refine ⟨Iff.intro (fun hEq => nomatch hEq) (fun hle => absurd hle hrs), ?_⟩
      intro c hc
      rw [Option.some.injEq] at hc
      subst hc
      refine ⟨rfl, ?_⟩
      split_ifs <;> simp [signOr1_sq]
  · rw [if_neg hD0, if_neg hD0]
    have hDnn : 0 ≤ D := by
      rw [hD]
      nlinarith [mul_self_nonneg nx, mul_self_nonneg ny, mul_self_nonneg nz]
    have hDpos : 0 < D := lt_of_le_of_ne hDnn (Ne.symm hD0)
    have hsq : Real.sqrt D ^ 2 = D := Real.sq_sqrt hDnn
    by_cases hge : r * r ≤ D
    · rw [if_pos hge]
      have hle : r ≤ Real.sqrt D := by
        have h1 : r = Real.sqrt (r * r) := (Real.sqrt_mul_self hr.le).symm
        rw [h1]
        exact Real.sqrt_le_sqrt hge
      exact ⟨Iff.intro (fun _ => hle) (fun _ => rfl), fun c hc => nomatch hc⟩
    · rw [if_neg hge]
      push_neg at hge
      have hlt : Real.sqrt D < r := by
        have h1 : Real.sqrt D < Real.sqrt (r * r) := Real.sqrt_lt_sqrt hDnn hge
        rwa [Real.sqrt_mul_self hr.le] at h1
      refine ⟨Iff.intro (fun hEq => nomatch hEq) (fun hle => absurd hle (not_le.mpr hlt)), ?_⟩
      intro c hc
      rw [Option.some.injEq] at hc
      subst hc
      refine ⟨rfl, ?_⟩
      dsimp only
      rw [div_pow, div_pow, div_pow, div_add_div_same, div_add_div_same, hsq,
        div_eq_one_iff_eq hD0]
      rw [hD]
      ring

/-- Witness for the amended C4 claim at the counterexample configuration:
radius `0.45 > 0`, sphere centre at the centre of the box with half
extents 2. -/
theorem sphereVsAabb_separation_witness :
    (0 : ℝ) < 45 / 100 ∧
    ((sphereVsAabb ⟨0, 0, 0⟩ (45 / 100) ⟨⟨0, 0, 0⟩, ⟨2, 2, 2⟩⟩ = none ↔
        (45 / 100 : ℝ) ≤ sphereSep ⟨0, 0, 0⟩ ⟨⟨0, 0, 0⟩, ⟨2, 2, 2⟩⟩) ∧
     (∀ c : Contact, sphereVsAabb ⟨0, 0, 0⟩ (45 / 100) ⟨⟨0, 0, 0⟩, ⟨2, 2, 2⟩⟩ = some c →
        c.penetration = 45 / 100 - sphereSep ⟨0, 0, 0⟩ ⟨⟨0, 0, 0⟩, ⟨2, 2, 2⟩⟩ ∧
        c.normal.x ^ 2 + c.normal.y ^ 2 + c.normal.z ^ 2 = 1)) :=
  ⟨by norm_num,
   sphereVsAabb_separation ⟨0, 0, 0⟩ (45 / 100) ⟨⟨0, 0, 0⟩, ⟨2, 2, 2⟩⟩ (by norm_num)⟩

lemma bottomFloorY_val : bottomFloorY = -(23 / 10) := by
  unfold bottomFloorY levelYs inner cubeSize
  norm_num [List.getD_cons_zero]

lemma topFloorY_val : topFloorY = 23 / 10 := by
  unfold topFloorY levelYs inner cubeSize
  norm_num [List.getD_cons_zero, List.getD_cons_succ, List.length_cons, List.length_nil]

lemma limitX_pos : 0 < limitX := by
  unfold limitX outerHalf mazeHalf usableSpan inner cubeSize ballRadius
  rw [lt_min_iff]
  norm_num

lemma limitZ_pos : 0 < limitZ := by
  unfold limitZ outerHalf mazeHalf usableSpan inner cubeSize ballRadius
  rw [lt_min_iff]
  norm_num

lemma bottomY_le_topY : bottomY ≤ topY := by
  unfold bottomY topY
  rw [bottomFloorY_val, topFloorY_val]
  unfold floorThickness ballRadius
  norm_num

/-- Every sub-step ends with the containment clamp, so its output position
is inside the bounds whatever the walls did. -/
lemma substep_bounds (walls : List Wall) (g : Vec3) (h : ℝ) (pv : Vec3 × Vec3) :
    |(substep walls g h pv).1.x| ≤ limitX ∧ |(substep walls g h pv).1.z| ≤ limitZ ∧
    bottomY ≤ (substep walls g h pv).1.y ∧ (substep walls g h pv).1.y ≤ topY := by
  unfold substep
  dsimp only
  refine ⟨?_, ?_, ?_, ?_⟩
  · rw [abs_le]
    exact ⟨le_max_left _ _, max_le (by linarith [limitX_pos]) (min_le_left _ _)⟩
  · rw [abs_le]
    exact ⟨le_max_left _ _, max_le (by linarith [limitZ_pos]) (min_le_left _ _)⟩
  · exact le_max_left _ _
  · exact max_le bottomY_le_topY (min_le_left _ _)

lemma numSteps_pos (dt : ℝ) : 1 ≤ numSteps dt := by
  unfold numSteps
  omega

/-- The position after a tick is the position after the sub-step
iteration: the damping and win test do not move the ball. -/
lemma tick_pos_eq (walls : List Wall) (g goal : Vec3) (cs dt : ℝ) (s : BallState) :
    (tick walls g goal cs dt s).pos
      = ((fun q => substep walls g (dt / (numSteps dt : ℝ)) q)^[numSteps dt]
          (s.pos, s.vel)).1 := by
  unfold tick
  dsimp only
  split_ifs <;> rfl

/-- One `integrateBall` call always ends inside the containment bounds:
there is at least one sub-step, and each sub-step ends with the clamp. -/
lemma tick_contained (walls : List Wall) (g goal : Vec3) (cs dt : ℝ) (s : BallState) :
    |(tick walls g goal cs dt s).pos.x| ≤ limitX ∧
    |(tick walls g goal cs dt s).pos.z| ≤ limitZ ∧
    bottomY ≤ (tick walls g goal cs dt s).pos.y ∧
    (tick walls g goal cs dt s).pos.y ≤ topY := by
  rw [tick_pos_eq]
  obtain ⟨k, hk⟩ : ∃ k, numSteps dt = k + 1 :=
    ⟨numSteps dt - 1, by have := numSteps_pos dt; omega⟩
  rw [hk, Function.iterate_succ_apply']
  exact substep_bounds walls g _ _

/-- C2: after every `integrateBall` call in any tick sequence — for
arbitrary wall sets, cube orientations (entering as the cube-local
gravity) and time steps — the ball's position satisfies `|x| ≤ limitX`,
`|z| ≤ limitZ` and `bottomY ≤ y ≤ topY`, where `limitX = limitZ` is the
min of the shell bound and the maze-footprint bound; the final
containment clamp guarantees this regardless of wall-collision pushes. -/
theorem ball_containment (l : List TickInput) (i : TickInput) (s : BallState) :
    (|(runTicks (l ++ [i]) s).pos.x| ≤ limitX ∧
     |(runTicks (l ++ [i]) s).pos.z| ≤ limitZ ∧
     bottomY ≤ (runTicks (l ++ [i]) s).pos.y ∧
     (runTicks (l ++ [i]) s).pos.y ≤ topY) ∧
    limitX = min (cubeSize / 2 - ballRadius - 0.18) (usableSpan / 2 - 0.3 * ballRadius) ∧
    limitZ = limitX := by
  refine ⟨?_, ?_, rfl⟩
  · have hsplit : runTicks (l ++ [i]) s
        = tick i.walls i.gravity i.goal i.cellSize i.dt (runTicks l s) := by
      unfold runTicks
      rw [List.foldl_append]
      rfl
    rw [hsplit]
    exact tick_contained _ _ _ _ _ _
  · unfold limitX outerHalf mazeHalf
    congr 1
    ring

lemma limitX_val : limitX = 753 / 200 := by
  unfold limitX outerHalf mazeHalf usableSpan inner cubeSize ballRadius
  rw [min_def]
  norm_num

lemma limitZ_val : limitZ = 753 / 200 := by
  unfold limitZ outerHalf mazeHalf usableSpan inner cubeSize ballRadius
  rw [min_def]
  norm_num

lemma bottomY_val : bottomY = -(471 / 200) := by
  unfold bottomY floorThickness ballRadius
  rw [bottomFloorY_val]
  norm_num

lemma topY_val : topY = 521 / 200 := by
  unfold topY floorThickness ballRadius
  rw [topFloorY_val]
  norm_num

/-- An axis bounce is the identity when the position is inside the
bounds. -/
lemma bounceAxis_id {lo hi p v : ℝ} (h1 : lo ≤ p) (h2 : p ≤ hi) :
    bounceAxis lo hi p v = (p, v) := by
  unfold bounceAxis
  rw [if_neg (by linarith), if_neg (by linarith)]

/-- A wall with no detected contact leaves position and velocity
untouched. -/
lemma collideWall_none {r : ℝ} {pv : Vec3 × Vec3} {w : Wall}
    (h : sphereVsAabb pv.1 r w = none) : collideWall r pv w = pv := by
  unfold collideWall
  rw [h]

/-- In the C3 scenario the ball does not touch the panel after the first
sub-step: the squared distance to the clamped closest point exceeds the
squared radius. -/
lemma sphere_panel_missA :
    sphereVsAabb ⟨0, -(1/1800), 1/24⟩ ballRadius ⟨⟨0, 0, 1⟩, ⟨2, 2, 3/100⟩⟩ = none := by
  unfold sphereVsAabb ballRadius
  norm_num [min_def, max_def]

/-- In the C3 scenario the ball still does not touch the panel after the
second sub-step. -/
lemma sphere_panel_missB :
    sphereVsAabb ⟨0, -(1/600), 1/12⟩ ballRadius ⟨⟨0, 0, 1⟩, ⟨2, 2, 3/100⟩⟩ = none := by
  unfold sphereVsAabb ballRadius
  norm_num [min_def, max_def]

/-- First sub-step of the C3 scenario, evaluated exactly. -/
lemma substep_c3_first :
    substep [⟨⟨0, 0, 1⟩, ⟨2, 2, 3/100⟩⟩] ⟨0, -8, 0⟩ (1/120) (⟨0, 0, 0⟩, ⟨0, 0, 5⟩)
      = (⟨0, -(1/1800), 1/24⟩, ⟨0, -(1/15), 5⟩) := by
  unfold substep
  dsimp only
  norm_num
  rw [bounceAxis_id (by rw [limitX_val]; norm_num) (by rw [limitX_val]; norm_num),
      bounceAxis_id (by rw [bottomY_val]; norm_num) (by rw [topY_val]; norm_num),
      bounceAxis_id (by rw [limitZ_val]; norm_num) (by rw [limitZ_val]; norm_num)]
  dsimp only
  rw [collideWall_none sphere_panel_missA]
  dsimp only
  rw [limitX_val, limitZ_val, bottomY_val, topY_val]
  norm_num [min_def, max_def]

/-- Second sub-step of the C3 scenario, evaluated exactly. -/
lemma substep_c3_second :
    substep [⟨⟨0, 0, 1⟩, ⟨2, 2, 3/100⟩⟩] ⟨0, -8, 0⟩ (1/120)
        (⟨0, -(1/1800), 1/24⟩, ⟨0, -(1/15), 5⟩)
      = (⟨0, -(1/600), 1/12⟩, ⟨0, -(2/15), 5⟩) := by
  unfold substep
  dsimp only
  norm_num
  rw [bounceAxis_id (by rw [limitX_val]; norm_num) (by rw [limitX_val]; norm_num),
      bounceAxis_id (by rw [bottomY_val]; norm_num) (by rw [topY_val]; norm_num),
      bounceAxis_id (by rw [limitZ_val]; norm_num) (by rw [limitZ_val]; norm_num)]
  dsimp only
  rw [collideWall_none sphere_panel_missB]
  dsimp only
  rw [limitX_val, limitZ_val, bottomY_val, topY_val]
  norm_num [min_def, max_def]

/-- C3: the tunneling scenario — ball at the origin with radius `0.45`
and velocity `(0,0,5)`, a thin panel centred at `(0,0,1)` with half
extents `(2,2,0.03)`, identity cube orientation (local gravity
`(0,-8,0)`), one `integrateBall` call with `dt = 1/60` sub-stepped at
`1/120` — ends with the ball's `z` at most `1 - 0.03 - 0.45 = 0.52`: the
ball does not pass through the panel.  (The exact final `z` is `1/12`.) -/
theorem thin_panel_no_tunnel (goal : Vec3) (cs : ℝ) :
    (tick [⟨⟨0, 0, 1⟩, ⟨2, 2, 3 / 100⟩⟩] ⟨0, -8, 0⟩ goal cs (1 / 60)
        ⟨⟨0, 0, 0⟩, ⟨0, 0, 5⟩, false⟩).pos.z ≤ 52 / 100 := by
  have hns : numSteps (1 / 60) = 2 := by
    unfold numSteps maxStep
    rw [show (1 / 60 : ℝ) / (1 / 120) = ((2 : ℤ) : ℝ) by norm_num, Int.ceil_intCast]
    rfl
  rw [tick_pos_eq, hns]
  have hh : (1 / 60 : ℝ) / ((2 : ℕ) : ℝ) = 1 / 120 := by norm_num
  rw [hh]
  have hiter : (fun q => substep [(⟨⟨0, 0, 1⟩, ⟨2, 2, 3 / 100⟩⟩ : Wall)] ⟨0, -8, 0⟩ (1/120) q)^[2]
        ((⟨⟨0, 0, 0⟩, ⟨0, 0, 5⟩, false⟩ : BallState).pos,
          (⟨⟨0, 0, 0⟩, ⟨0, 0, 5⟩, false⟩ : BallState).vel)
      = substep [⟨⟨0, 0, 1⟩, ⟨2, 2, 3 / 100⟩⟩] ⟨0, -8, 0⟩ (1/120)
          (substep [⟨⟨0, 0, 1⟩, ⟨2, 2, 3 / 100⟩⟩] ⟨0, -8, 0⟩ (1/120)
            (⟨0, 0, 0⟩, ⟨0, 0, 5⟩)) := rfl
  rw [hiter, substep_c3_first, substep_c3_second]
  norm_num

end Peli
